import Mathlib

/-!
# Verification of the CSTM columnar format (writer/reader codec)

Shallow embedding of the Python sources `byte_utils.py`,
`column_serializers.py`, `header_utils.py`, `writer.py` and `reader.py`.

Modelling conventions:
* A byte is a `Nat` (values produced by the codec are always `< 256`;
  hypotheses state this bound where a theorem needs it for foreign input).
* Python `bytes` values are `List Nat`.
* Python strings that travel through the codec are modelled by their UTF-8
  byte sequences (`List Nat`).  `str.encode('utf-8')` is the identity on
  this representation (a byte list that is not valid UTF-8 is not the
  encoding of any Python string and is rejected), and the strict
  `bytes.decode('utf-8')` of the parser succeeds exactly on valid UTF-8
  (`validUtf8` below) and raises `UnicodeDecodeError` otherwise.
* A Python `float` is modelled by its 64-bit IEEE-754 bit pattern (a `Nat`
  below `2^64`); `struct.pack('<d')`/`unpack` are bit preserving, so they are
  `pack_u64`/`unpack_u64` on the pattern.
* Fallible Python code (`raise`) is modelled with `Except String`.
* `zlib.compress` / `zlib.decompress` are an external library, not repository
  code; the writer and reader are parameterised by the compression codec, and
  round-trip theorems hypothesise the codec's documented lossless contract
  `decomp (comp b) = .ok b`.
* Cell values are well-typed (`Value` below).  The source's dynamic coercions
  (`int(v)`, `str(v)`) on ill-typed cells are outside the model; every claim
  quantifies over values valid for their declared column type.
-/

namespace CSTM

/-! ## byte_utils.py : primitive little-endian codec -/

/-- `MAGIC = b'CSTM'` -/
def MAGIC : List Nat := [67, 83, 84, 77]

/-- `VERSION = 1` -/
def VERSION : Nat := 1

/-- `HEADER_PREFIX_LEN = 0x14` -/
def HEADER_PREFIX_LEN : Nat := 20

/-- Type id constants. -/
def TYPE_INT32 : Nat := 0
def TYPE_FLOAT64 : Nat := 1
def TYPE_STRING : Nat := 2

/-- Little-endian encoding of `x` into `w` bytes (the body shared by
`struct.pack('<B'/'<H'/'<I'/'<Q')`).  Overflow checking is done at call
sites via `packU`. -/
def packLE : Nat → Nat → List Nat
  | 0, _ => []
  | w + 1, x => (x % 256) :: packLE w (x / 256)

/-- Little-endian decoding of a byte list
(`struct.unpack('<H'/'<I'/'<Q')` on an exact-width buffer). -/
def unpackLE (l : List Nat) : Nat :=
  l.foldr (fun b acc => b + 256 * acc) 0

/-- `struct.pack` for an unsigned `w`-byte field: errors when the value is
out of range, exactly as `struct.error` is raised in Python. -/
def packU (w : Nat) (x : Nat) : Except String (List Nat) :=
  if x < 256 ^ w then .ok (packLE w x) else .error "struct.error: argument out of range"

/-- `pack_i32`: `struct.pack('<i', x)` on an in-range signed value, i.e. the
two's-complement residue encoded little-endian.  Range checking is performed
by callers (`serialize_int32_column`), as in the source. -/
def pack_i32 (x : Int) : List Nat :=
  packLE 4 (x % (2 ^ 32 : Int)).toNat

/-- `unpack_i32`: `struct.unpack('<i', b)`, interpreting 4 bytes as a
two's-complement signed 32-bit integer. -/
def unpack_i32 (b : List Nat) : Int :=
  if unpackLE b < 2 ^ 31 then (unpackLE b : Int) else (unpackLE b : Int) - 2 ^ 32

/-! ## Cell values

A well-typed cell: an INT32 cell carries an integer, a FLOAT64 cell carries
the 64-bit IEEE-754 bit pattern of its double, a STRING cell carries the
UTF-8 bytes of its string. -/

inductive Value where
  | vInt (i : Int)
  | vFloat (bits : Nat)
  | vStr (bytes : List Nat)
  deriving DecidableEq, Repr

/-! ## column_serializers.py -/

def I32_MIN : Int := -(2 ^ 31)
def I32_MAX : Int := 2 ^ 31 - 1
def UINT32_MAX : Nat := 0xFFFFFFFF

/-- `serialize_int32_column`: pack each value as little-endian signed 32-bit,
raising on a non-integer cell or an out-of-range integer. -/
def serialize_int32_column : List Value → Except String (List Nat)
  | [] => .ok []
  | .vInt iv :: rest =>
      if iv < I32_MIN ∨ iv > I32_MAX then
        .error "Value out of int32 range"
      else do
        let tl ← serialize_int32_column rest
        .ok (pack_i32 iv ++ tl)
  | _ :: _ => .error "Null values not supported for INT32 in this implementation."

/-- `serialize_float64_column`: pack each value as a little-endian IEEE-754
double.  A cell is a 64-bit pattern; a `Nat` of 2^64 or more is not the
pattern of any Python float, so it is rejected, like the source's `float(v)`
on a non-float. -/
def serialize_float64_column : List Value → Except String (List Nat)
  | [] => .ok []
  | .vFloat bits :: rest =>
      if bits ≥ 2 ^ 64 then
        .error "not an IEEE-754 double bit pattern"
      else do
        let tl ← serialize_float64_column rest
        .ok (packLE 8 bits ++ tl)
  | _ :: _ => .error "Null values not supported for FLOAT64 in this implementation."

/-- Cumulative offsets `O[0..n]` of the string data section: `O[0] = 0`,
`O[i+1] = O[i] + len(s_i)` (the `offsets` list built by
`serialize_string_column`). -/
def stringOffsets (c : Nat) : List (List Nat) → List Nat
  | [] => [c]
  | s :: rest => c :: stringOffsets (c + s.length) rest

/-- A UTF-8 continuation byte (`0x80`-`0xBF`). -/
def utf8Cont (b : Nat) : Bool := decide (0x80 ≤ b ∧ b ≤ 0xBF)

/-- Admissible first continuation byte after a three-byte lead: `0xE0`
forbids overlong encodings, `0xED` forbids surrogates. -/
def utf8First3 (b b1 : Nat) : Bool :=
  if b = 0xE0 then decide (0xA0 ≤ b1 ∧ b1 ≤ 0xBF)
  else if b = 0xED then decide (0x80 ≤ b1 ∧ b1 ≤ 0x9F)
  else utf8Cont b1

/-- Admissible first continuation byte after a four-byte lead: `0xF0`
forbids overlong encodings, `0xF4` caps code points at `U+10FFFF`. -/
def utf8First4 (b b1 : Nat) : Bool :=
  if b = 0xF0 then decide (0x90 ≤ b1 ∧ b1 ≤ 0xBF)
  else if b = 0xF4 then decide (0x80 ≤ b1 ∧ b1 ≤ 0x8F)
  else utf8Cont b1

/-- Whether a byte sequence is valid (RFC 3629) UTF-8 — the success
condition of Python's strict `bytes.decode('utf-8')`: ASCII, two-byte
leads `0xC2`-`0xDF`, three-byte leads `0xE0`-`0xEF` and four-byte leads
`0xF0`-`0xF4`, each with in-range continuation bytes and without
overlongs, surrogates or code points beyond `U+10FFFF`. -/
def validUtf8 : List Nat → Bool
  | [] => true
  | b :: rest =>
      if b ≤ 0x7F then validUtf8 rest
      else if b < 0xC2 then false
      else if b ≤ 0xDF then
        match rest with
        | b1 :: r => utf8Cont b1 && validUtf8 r
        | [] => false
      else if b ≤ 0xEF then
        match rest with
        | b1 :: b2 :: r => utf8First3 b b1 && utf8Cont b2 && validUtf8 r
        | _ => false
      else if b ≤ 0xF4 then
        match rest with
        | b1 :: b2 :: b3 :: r =>
            utf8First4 b b1 && utf8Cont b2 && utf8Cont b3 && validUtf8 r
        | _ => false
      else false

/-- The `data_parts` accumulation of `serialize_string_column`: each cell's
UTF-8 bytes (`v.encode('utf-8')`, the identity on the byte model, defined
exactly on valid UTF-8 since only those byte lists encode a Python
string).  A non-string cell is rejected (the source's `str(v)` coercion of
ill-typed cells is outside the typed model). -/
def strBytes : List Value → Except String (List (List Nat))
  | [] => .ok []
  | .vStr b :: rest =>
      if validUtf8 b then do
        let tl ← strBytes rest
        .ok (b :: tl)
      else .error "not the UTF-8 encoding of a string"
  | _ :: _ => .error "STRING column cell is not a string"

/-- `serialize_string_column`: the `(num_values+1)`-entry u32 offsets table
followed by the concatenated UTF-8 bytes.  Fails when the total data length
exceeds the 32-bit offset range. -/
def serialize_string_column (values : List Value) : Except String (List Nat) := do
  let ss ← strBytes values
  let total := (ss.map List.length).sum
  if total > UINT32_MAX then
    .error "Total string data exceeds 4GiB; 32-bit offsets cannot represent this."
  else
    .ok ((stringOffsets 0 ss).flatMap (packLE 4) ++ ss.flatten)

/-- `parse_int32_block` inner loop: decode `n` consecutive 4-byte
little-endian signed values, advancing by 4 each step. -/
def parseI32Loop (data : List Nat) : Nat → List Int
  | 0 => []
  | n + 1 => unpack_i32 (data.take 4) :: parseI32Loop (data.drop 4) n

/-- `parse_int32_block`: strict length check then decode. -/
def parse_int32_block (data : List Nat) (num_values : Nat) : Except String (List Int) :=
  if data.length ≠ num_values * 4 then
    .error "INT32 block size mismatch"
  else
    .ok (parseI32Loop data num_values)

/-- `parse_float64_block` inner loop. -/
def parseF64Loop (data : List Nat) : Nat → List Nat
  | 0 => []
  | n + 1 => unpackLE (data.take 8) :: parseF64Loop (data.drop 8) n

/-- `parse_float64_block`: strict length check then decode each 8-byte
pattern. -/
def parse_float64_block (data : List Nat) (num_values : Nat) : Except String (List Nat) :=
  if data.length ≠ num_values * 8 then
    .error "FLOAT64 block size mismatch"
  else
    .ok (parseF64Loop data num_values)

/-- The offsets-reading loop of `parse_string_block`: `k` consecutive u32
entries. -/
def readOffsets (data : List Nat) : Nat → List Nat
  | 0 => []
  | k + 1 => unpackLE (data.take 4) :: readOffsets (data.drop 4) k

/-- The string-extraction loop of `parse_string_block`: for consecutive
offset pairs, validate `offsets[i] ≤ offsets[i+1]`, slice
`data_section[s_off:s_end]` and decode it (`raw.decode('utf-8')`, which
raises `UnicodeDecodeError` on invalid UTF-8) before moving to the next
pair. -/
def sliceStrings (ds : List Nat) : List Nat → Except String (List (List Nat))
  | [] => .ok []
  | [_] => .ok []
  | a :: b :: rest =>
      if a > b then
        .error "Invalid offsets: offsets[i] > offsets[i+1]"
      else if validUtf8 ((ds.drop a).take (b - a)) then do
        let tl ← sliceStrings ds (b :: rest)
        .ok (((ds.drop a).take (b - a)) :: tl)
      else
        .error "UnicodeDecodeError: invalid UTF-8 in string data"

/-- `parse_string_block`: offsets-table length check, last-offset bound
check, then pairwise-monotone slicing. -/
def parse_string_block (data : List Nat) (num_values : Nat) :
    Except String (List (List Nat)) :=
  let offsets_byte_len := (num_values + 1) * 4
  if data.length < offsets_byte_len then
    .error "STRING block too small for offsets"
  else
    let offsets := readOffsets data (num_values + 1)
    let data_section := data.drop offsets_byte_len
    if offsets.getLastD 0 > data_section.length then
      .error "Last offset exceeds data section length"
    else
      sliceStrings data_section offsets

/-! ## header_utils.py -/

/-- A column descriptor (the per-column dict of `header_utils.py`).  The
name is its UTF-8 byte sequence. -/
structure ColEntry where
  name : List Nat
  type : Nat
  flags : Nat
  num_values : Nat
  offset : Nat
  comp_size : Nat
  uncomp_size : Nat
  deriving DecidableEq, Repr

/-- Per-column section of `build_header`: name length (u16) + name bytes,
type (u8), flags (u8), then four u64 fields.  Each fixed-width pack raises
on overflow, and a name of 65536+ bytes raises `ValueError`, as in the
source. -/
def buildEntry (e : ColEntry) : Except String (List Nat) := do
  if e.name.length ≥ 2 ^ 16 then
    .error "Column name too long (>65535 bytes)"
  else
    let nl ← packU 2 e.name.length
    let ty ← packU 1 e.type
    let fl ← packU 1 e.flags
    let nv ← packU 8 e.num_values
    let off ← packU 8 e.offset
    let cs ← packU 8 e.comp_size
    let us ← packU 8 e.uncomp_size
    .ok (nl ++ e.name ++ ty ++ fl ++ nv ++ off ++ cs ++ us)

/-- The per-column loop of `build_header`. -/
def buildEntries : List ColEntry → Except String (List Nat)
  | [] => .ok []
  | e :: rest => do
      let b ← buildEntry e
      let tl ← buildEntries rest
      .ok (b ++ tl)

/-- `build_header`: schema signature (u32, masked), total rows (u64),
column count (u32), then the per-column entries. -/
def build_header (schema_signature : Nat) (total_rows : Nat)
    (column_entries : List ColEntry) : Except String (List Nat) := do
  let sig := packLE 4 (schema_signature % 2 ^ 32)
  let rows ← packU 8 total_rows
  let nc ← packU 4 column_entries.length
  let body ← buildEntries column_entries
  .ok (sig ++ rows ++ nc ++ body)

/-- `buf.read(n)` followed by the short-read check of `parse_header` /
`read_exact`: returns the `n` bytes and the remaining buffer. -/
def readExact (l : List Nat) (n : Nat) : Except String (List Nat × List Nat) :=
  if l.length < n then .error "truncated" else .ok (l.take n, l.drop n)

/-- The per-column loop of `parse_header`. -/
def parseEntries (buf : List Nat) : Nat → Except String (List ColEntry)
  | 0 => .ok []
  | k + 1 => do
      let (nlb, r1) ← readExact buf 2
      let name_len := unpackLE nlb
      let (name_b, r2) ← readExact r1 name_len
      let (tyb, r3) ← readExact r2 1
      let (flb, r4) ← readExact r3 1
      let (nvb, r5) ← readExact r4 8
      let (offb, r6) ← readExact r5 8
      let (csb, r7) ← readExact r6 8
      let (usb, r8) ← readExact r7 8
      let rest ← parseEntries r8 k
      .ok ({ name := name_b, type := unpackLE tyb, flags := unpackLE flb,
             num_values := unpackLE nvb, offset := unpackLE offb,
             comp_size := unpackLE csb, uncomp_size := unpackLE usb } :: rest)

/-- `parse_header`: schema signature, total rows, column count, then the
descriptor list.  Trailing bytes beyond the last descriptor are ignored, as
with the source's `BytesIO` cursor. -/
def parse_header (header_bytes : List Nat) :
    Except String (Nat × Nat × List ColEntry) := do
  let (sigb, r1) ← readExact header_bytes 4
  let (rowsb, r2) ← readExact r1 8
  let (ncb, r3) ← readExact r2 4
  let cols ← parseEntries r3 (unpackLE ncb)
  .ok (unpackLE sigb, unpackLE rowsb, cols)

/-! ## writer.py -/

/-- The `_SERIALIZERS` dispatch map: type id → column serializer.  An unknown
type id raises, as in `write_cstm`. -/
def serializeByType (t : Nat) (col : List Value) : Except String (List Nat) :=
  if t = 0 then serialize_int32_column col
  else if t = 1 then serialize_float64_column col
  else if t = 2 then serialize_string_column col
  else .error "Unknown column type id"

/-- The block-writing loop of `write_cstm`: starting at absolute stream
position `pos`, serialize each `(type, values)` column, compress it with
`comp`, and return the per-column `(offset, comp_size, uncomp_size)` triples
together with the concatenated block bytes. -/
def writeBlocks (comp : List Nat → List Nat) (pos : Nat) :
    List (Nat × List Value) → Except String (List (Nat × Nat × Nat) × List Nat)
  | [] => .ok ([], [])
  | (t, col) :: rest => do
      let uncompressed ← serializeByType t col
      let compressed := comp uncompressed
      let (metas, body) ← writeBlocks comp (pos + compressed.length) rest
      .ok ((pos, compressed.length, uncompressed.length) :: metas, compressed ++ body)

/-- Descriptors from names, `(type, values)` pairs and numeric triples
(placeholder zeros before the block pass, real values after). -/
def mkEntries : List (List Nat) → List (Nat × List Value) → List (Nat × Nat × Nat) →
    List ColEntry
  | n :: ns, (t, col) :: tcs, (o, cs, us) :: ms =>
      { name := n, type := t, flags := 0, num_values := col.length,
        offset := o, comp_size := cs, uncomp_size := us } :: mkEntries ns tcs ms
  | _, _, _ => []

/-- `write_cstm`, parameterised by the compression function.  Returns the
final file bytes; every `raise` of the source becomes `.error` (validation
errors are raised before the output file is opened).  The file is
prefix ++ final header ++ column blocks, the final header overwriting the
placeholder in place. -/
def write_cstm (comp : List Nat → List Nat) (column_names : List (List Nat))
    (column_types : List Nat) (columns : List (List Value))
    (schema_signature : Nat := 0) : Except String (List Nat) := do
  if ¬(column_names.length = column_types.length ∧
       column_types.length = columns.length) then
    .error "column_names, column_types and columns must have same length"
  else
    let total_rows := (columns.headD []).length
    if ¬ columns.all (fun col => col.length = total_rows) then
      .error "Column length != expected"
    else
      let tcols := column_types.zip columns
      let entries0 := mkEntries column_names tcols
        (List.replicate columns.length (0, 0, 0))
      let initial_header ← build_header schema_signature total_rows entries0
      let header_len := initial_header.length
      let hlenB ← packU 8 header_len
      let (metas, body) ← writeBlocks comp (HEADER_PREFIX_LEN + header_len) tcols
      let entriesF := mkEntries column_names tcols metas
      let final_header ← build_header schema_signature total_rows entriesF
      if final_header.length ≠ header_len then
        .error "Header length changed between initial and final serialization."
      else
        .ok (MAGIC ++ [VERSION] ++ List.replicate 7 0 ++ hlenB ++ final_header ++ body)

/-! ## reader.py -/

/-- The `_PARSERS` dispatch map: type id → block parser, wrapped into
well-typed `Value`s. -/
def parseByType (t : Nat) (data : List Nat) (num_values : Nat) :
    Except String (List Value) :=
  if t = 0 then (parse_int32_block data num_values).map (List.map Value.vInt)
  else if t = 1 then (parse_float64_block data num_values).map (List.map Value.vFloat)
  else if t = 2 then (parse_string_block data num_values).map (List.map Value.vStr)
  else .error "Unknown column type"

/-- Prefix-and-header phase of `read_cstm`: magic check, version and
reserved bytes, header length, exact header read, header parse. -/
def readHeaderPhase (file : List Nat) :
    Except String (Nat × Nat × List ColEntry) := do
  let (magic, r1) ← readExact file 4
  if magic ≠ MAGIC then
    .error "Bad magic: not a CSTM file"
  else
    let (_, r2) ← readExact r1 1
    let (_, r3) ← readExact r2 7
    let (hlb, r4) ← readExact r3 8
    let header_len := unpackLE hlb
    let (header_bytes, _) ← readExact r4 header_len
    parse_header header_bytes

/-- `name_to_meta` lookup: the dict comprehension keeps the **last**
descriptor for a duplicated name. -/
def dictLookup (meta : List ColEntry) (n : List Nat) : Option ColEntry :=
  meta.foldl (fun acc c => if c.name = n then some c else acc) none

/-- Column-name resolution of `read_cstm`: caller order preserved, first
missing name raises. -/
def resolveColumns (meta : List ColEntry) : List (List Nat) →
    Except String (List ColEntry)
  | [] => .ok []
  | n :: rest =>
      match dictLookup meta n with
      | none => .error "Requested column not found in file"
      | some c => do
          let tl ← resolveColumns meta rest
          .ok (c :: tl)

/-- Per-column read: the empty-block short-circuit, then seek + exact read
of the compressed bytes, decompression, decompressed-size check, and typed
block parse. -/
def readColumn (decomp : List Nat → Except String (List Nat)) (file : List Nat)
    (c : ColEntry) : Except String (List Value) :=
  if c.comp_size = 0 ∧ c.uncomp_size = 0 then
    .ok []
  else do
    let (comp_bytes, _) ← readExact (file.drop c.offset) c.comp_size
    let uncompressed ← decomp comp_bytes
    if uncompressed.length ≠ c.uncomp_size then
      .error "Uncompressed size mismatch"
    else
      parseByType c.type uncompressed c.num_values

/-- The per-column loop of `read_cstm`, pairing each resolved descriptor
with its parsed values. -/
def readColumns (decomp : List Nat → Except String (List Nat)) (file : List Nat) :
    List ColEntry → Except String (List (List Nat × List Value))
  | [] => .ok []
  | c :: rest => do
      let v ← readColumn decomp file c
      let tl ← readColumns decomp file rest
      .ok ((c.name, v) :: tl)

/-- Row reconstruction of `read_cstm`: row `i` collects element `i` of every
selected column. -/
def transposeRows (n : Nat) (cols : List (List Value)) : List (List Value) :=
  (List.range n).map fun i => cols.map fun arr => arr.getD i (Value.vInt 0)

/-- `read_cstm`, parameterised by the decompression function.  `none`
selects all columns in header order; `some names` resolves the requested
names.  Returns the resolved column names and the row-major rows. -/
def read_cstm (decomp : List Nat → Except String (List Nat)) (file : List Nat)
    (select_columns : Option (List (List Nat))) :
    Except String (List (List Nat) × List (List Value)) := do
  let (_, _, columns_meta) ← readHeaderPhase file
  let selected_meta ←
    match select_columns with
    | none => Except.ok columns_meta
    | some names => resolveColumns columns_meta names
  let results ← readColumns decomp file selected_meta
  if results.length = 0 then
    .ok ([], [])
  else
    let col_names := results.map Prod.fst
    let cols_data := results.map Prod.snd
    let expected_len := (cols_data.headD []).length
    if ¬ cols_data.all (fun arr => arr.length = expected_len) then
      .error "Selected columns have differing lengths; file may be corrupt"
    else
      .ok (col_names, transposeRows expected_len cols_data)

/-! ## Claim-support definitions -/

/-- The identity compression function, a concrete codec satisfying the
lossless round-trip contract (used to instantiate witnesses). -/
def cId : List Nat → List Nat := fun b => b

/-- The matching identity decompression. -/
def dId : List Nat → Except String (List Nat) := fun b => .ok b

/-- Spec side (claim C1): the row-major transpose of column-major data —
row `i` holds element `i` of every column, in column order. -/
def rowMajorTranspose (rows : Nat) (cols : List (List Value)) : List (List Value) :=
  (List.range rows).map fun i => cols.map fun col => col.getD i (Value.vInt 0)

/-- Spec side (claim C4): filter a full read result down to the requested
names, in the caller's requested order — each requested name picks the
first full-result column carrying it; with no columns selected there are no
rows. -/
def specSelect (full_names : List (List Nat)) (full_rows : List (List Value))
    (sel : List (List Nat)) : List (List Nat) × List (List Value) :=
  (sel,
   if sel.isEmpty then []
   else full_rows.map fun row =>
     sel.map fun n => row.getD (full_names.findIdx (fun m => m = n)) (Value.vInt 0))

/-- Placeholder descriptor used as the default of list indexing in
statements about descriptor lists. -/
def defaultEntry : ColEntry := ColEntry.mk [] 0 0 0 0 0 0

/-- `write_cstm` output (identity codec) for one INT32 column `id:[1]`. -/
def exFile1 : List Nat :=
  [67, 83, 84, 77, 1, 0, 0, 0, 0, 0, 0, 0, 54, 0, 0, 0, 0, 0, 0, 0,
   0, 0, 0, 0, 1, 0, 0, 0, 0, 0, 0, 0, 1, 0, 0, 0,
   2, 0, 105, 100, 0, 0, 1, 0, 0, 0, 0, 0, 0, 0, 74, 0, 0, 0, 0, 0, 0, 0,
   4, 0, 0, 0, 0, 0, 0, 0, 4, 0, 0, 0, 0, 0, 0, 0,
   1, 0, 0, 0]

/-- `write_cstm` output (identity codec) for two INT32 columns that share
the name `a`: values `[1]` and `[2]`. -/
def exFileDup : List Nat :=
  [67, 83, 84, 77, 1, 0, 0, 0, 0, 0, 0, 0, 90, 0, 0, 0, 0, 0, 0, 0,
   0, 0, 0, 0, 1, 0, 0, 0, 0, 0, 0, 0, 2, 0, 0, 0,
   1, 0, 97, 0, 0, 1, 0, 0, 0, 0, 0, 0, 0, 110, 0, 0, 0, 0, 0, 0, 0,
   4, 0, 0, 0, 0, 0, 0, 0, 4, 0, 0, 0, 0, 0, 0, 0,
   1, 0, 97, 0, 0, 1, 0, 0, 0, 0, 0, 0, 0, 114, 0, 0, 0, 0, 0, 0, 0,
   4, 0, 0, 0, 0, 0, 0, 0, 4, 0, 0, 0, 0, 0, 0, 0,
   1, 0, 0, 0, 2, 0, 0, 0]

/-- `write_cstm` output (identity codec) for one zero-row STRING column
named `s`. -/
def exFileStr : List Nat :=
  [67, 83, 84, 77, 1, 0, 0, 0, 0, 0, 0, 0, 53, 0, 0, 0, 0, 0, 0, 0,
   0, 0, 0, 0, 0, 0, 0, 0, 0, 0, 0, 0, 1, 0, 0, 0,
   1, 0, 115, 2, 0, 0, 0, 0, 0, 0, 0, 0, 0, 73, 0, 0, 0, 0, 0, 0, 0,
   4, 0, 0, 0, 0, 0, 0, 0, 4, 0, 0, 0, 0, 0, 0, 0,
   0, 0, 0, 0]

/-! ## Primitive codec lemmas -/

@[simp] theorem packLE_length (w x : Nat) : (packLE w x).length = w := by
  induction w generalizing x with
  | zero => rfl
  | succ w ih => simp [packLE, ih]

theorem unpackLE_packLE (w x : Nat) : unpackLE (packLE w x) = x % 256 ^ w := by
  induction w generalizing x with
  | zero => simp [packLE, unpackLE, Nat.mod_one]
  | succ w ih =>
      simp only [packLE, unpackLE, List.foldr_cons]
      have h : unpackLE (packLE w (x / 256)) = x / 256 % 256 ^ w := ih (x / 256)
      simp only [unpackLE] at h
      rw [h, pow_succ, mul_comm (256 ^ w) 256, Nat.mod_mul]

theorem unpackLE_packLE_of_lt {w x : Nat} (h : x < 256 ^ w) :
    unpackLE (packLE w x) = x := by
  rw [unpackLE_packLE, Nat.mod_eq_of_lt h]

theorem packLE_lt (w x : Nat) : ∀ b ∈ packLE w x, b < 256 := by
  induction w generalizing x with
  | zero => intro b hb; simp [packLE] at hb
  | succ w ih =>
      intro b hb
      simp only [packLE, List.mem_cons] at hb
      rcases hb with h | h
      · omega
      · exact ih _ b h

/-! ## Basic codec lemmas -/

theorem readExact_append {x : List Nat} (rest : List Nat) {n : Nat}
    (h : x.length = n) : readExact (x ++ rest) n = .ok (x, rest) := by
  subst h
  simp [readExact, List.take_left, List.drop_left]

theorem unpackLE_lt {l : List Nat} (h : ∀ b ∈ l, b < 256) :
    unpackLE l < 256 ^ l.length := by
  induction l with
  | nil => simp [unpackLE]
  | cons a l ih =>
      have ha : a < 256 := h a (by simp)
      have hl : unpackLE l < 256 ^ l.length := ih (fun b hb => h b (by simp [hb]))
      simp only [unpackLE, List.foldr_cons, List.length_cons] at *
      calc a + 256 * l.foldr (fun b acc => b + 256 * acc) 0
          < 256 + 256 * l.foldr (fun b acc => b + 256 * acc) 0 := by omega
        _ ≤ 256 * 256 ^ l.length := by omega
        _ = 256 ^ (l.length + 1) := by ring

@[simp] theorem ok_bind {α β : Type} (a : α) (f : α → Except String β) :
    (Except.ok a >>= f) = f a := rfl

@[simp] theorem error_bind {α β : Type} (e : String) (f : α → Except String β) :
    (Except.error e >>= f : Except String β) = Except.error e := rfl

@[simp] theorem map_ok {α β : Type} (g : α → β) (a : α) :
    (Except.ok a : Except String α).map g = Except.ok (g a) := rfl

@[simp] theorem map_error {α β : Type} (g : α → β) (e : String) :
    (Except.error e : Except String α).map g = Except.error e := rfl

theorem unpack_i32_pack_i32 {x : Int} (h1 : I32_MIN ≤ x) (h2 : x ≤ I32_MAX) :
    unpack_i32 (pack_i32 x) = x := by
  have h1' : -2147483648 ≤ x := by
    have e : I32_MIN = -2147483648 := by norm_num [I32_MIN]
    rw [e] at h1; exact h1
  have h2' : x ≤ 2147483647 := by
    have e : I32_MAX = 2147483647 := by norm_num [I32_MAX]
    rw [e] at h2; exact h2
  unfold unpack_i32 pack_i32
  have h32 : (2 ^ 32 : Int) = 4294967296 := by norm_num
  have h31 : (2 ^ 31 : Nat) = 2147483648 := by norm_num
  have h256 : (256 : Nat) ^ 4 = 4294967296 := by norm_num
  have hlt : (x % (2 ^ 32 : Int)).toNat < 256 ^ 4 := by
    rw [h256, h32]; omega
  rw [unpackLE_packLE_of_lt hlt, h31, h32]
  split <;> omega

@[simp] theorem pack_i32_length (x : Int) : (pack_i32 x).length = 4 := by
  simp [pack_i32]

/-! ## Serializer lemmas -/

theorem serialize_int32_length {col : List Value} {b : List Nat}
    (h : serialize_int32_column col = .ok b) : b.length = 4 * col.length := by
  induction col generalizing b with
  | nil => simp [serialize_int32_column] at h; simp [← h]
  | cons v rest ih =>
      cases v with
      | vInt iv =>
          simp only [serialize_int32_column] at h
          split at h
          · exact absurd h (by simp)
          · cases hrest : serialize_int32_column rest with
            | error e => simp [hrest] at h
            | ok tl =>
                rw [hrest] at h; simp only [ok_bind, Except.ok.injEq] at h
                subst h
                simp [List.length_append, ih hrest, List.length_cons]
                ring
      | vFloat bits => simp [serialize_int32_column] at h
      | vStr s => simp [serialize_int32_column] at h

theorem parse_int32_roundtrip {col : List Value} {b : List Nat}
    (h : serialize_int32_column col = .ok b) :
    parse_int32_block b col.length = .ok ((parseI32Loop b col.length)) ∧
    (parseI32Loop b col.length).map Value.vInt = col := by
  have hlen := serialize_int32_length h
  constructor
  · simp [parse_int32_block, hlen, Nat.mul_comm]
  · induction col generalizing b with
    | nil => simp [serialize_int32_column] at h; simp [← h, parseI32Loop]
    | cons v rest ih =>
        cases v with
        | vInt iv =>
            simp only [serialize_int32_column] at h
            split at h
            · exact absurd h (by simp)
            · rename_i hrange
              cases hrest : serialize_int32_column rest with
              | error e => simp [hrest] at h
              | ok tl =>
                  rw [hrest] at h; simp only [ok_bind, Except.ok.injEq] at h
                  subst h
                  have htl := serialize_int32_length hrest
                  have hr := not_or.mp hrange
                  simp only [List.length_cons, parseI32Loop, List.map_cons]
                  rw [show (pack_i32 iv ++ tl).take 4 = pack_i32 iv by
                        rw [← pack_i32_length iv]; exact List.take_left _ _,
                      show (pack_i32 iv ++ tl).drop 4 = tl by
                        rw [← pack_i32_length iv]; exact List.drop_left _ _,
                      unpack_i32_pack_i32 (le_of_not_lt hr.1) (le_of_not_lt hr.2),
                      ih hrest htl]
        | vFloat bits => simp [serialize_int32_column] at h
        | vStr s => simp [serialize_int32_column] at h

theorem serialize_float64_length {col : List Value} {b : List Nat}
    (h : serialize_float64_column col = .ok b) : b.length = 8 * col.length := by
  induction col generalizing b with
  | nil => simp [serialize_float64_column] at h; simp [← h]
  | cons v rest ih =>
      cases v with
      | vFloat bits =>
          simp only [serialize_float64_column] at h
          split at h
          · exact absurd h (by simp)
          · cases hrest : serialize_float64_column rest with
            | error e => simp [hrest] at h
            | ok tl =>
                rw [hrest] at h; simp only [ok_bind, Except.ok.injEq] at h
                subst h
                simp [List.length_append, ih hrest, List.length_cons]
                ring
      | vInt iv => simp [serialize_float64_column] at h
      | vStr s => simp [serialize_float64_column] at h

theorem parse_float64_roundtrip {col : List Value} {b : List Nat}
    (h : serialize_float64_column col = .ok b) :
    parse_float64_block b col.length = .ok (parseF64Loop b col.length) ∧
    (parseF64Loop b col.length).map Value.vFloat = col := by
  have hlen := serialize_float64_length h
  constructor
  · simp [parse_float64_block, hlen, Nat.mul_comm]
  · induction col generalizing b with
    | nil => simp [serialize_float64_column] at h; simp [← h, parseF64Loop]
    | cons v rest ih =>
        cases v with
        | vFloat bits =>
            simp only [serialize_float64_column] at h
            split at h
            · exact absurd h (by simp)
            · rename_i hrange
              cases hrest : serialize_float64_column rest with
              | error e => simp [hrest] at h
              | ok tl =>
                  rw [hrest] at h; simp only [ok_bind, Except.ok.injEq] at h
                  subst h
                  have htl := serialize_float64_length hrest
                  simp only [List.length_cons, parseF64Loop, List.map_cons]
                  rw [show (packLE 8 bits ++ tl).take 8 = packLE 8 bits by
                        rw [← packLE_length 8 bits]; exact List.take_left _ _,
                      show (packLE 8 bits ++ tl).drop 8 = tl by
                        rw [← packLE_length 8 bits]; exact List.drop_left _ _,
                      unpackLE_packLE_of_lt (show bits < 256 ^ 8 by
                        norm_num; omega),
                      ih hrest htl]
        | vInt iv => simp [serialize_float64_column] at h
        | vStr s => simp [serialize_float64_column] at h

/-! ## String block lemmas -/

theorem strBytes_ok {col : List Value} {ss : List (List Nat)}
    (h : strBytes col = .ok ss) : col = ss.map Value.vStr := by
  induction col generalizing ss with
  | nil => simp [strBytes] at h; simp [← h]
  | cons v rest ih =>
      cases v with
      | vStr b =>
          simp only [strBytes] at h
          split at h
          · cases hrest : strBytes rest with
            | error e => rw [hrest] at h; simp at h
            | ok tl =>
                rw [hrest] at h; simp only [ok_bind, Except.ok.injEq] at h
                subst h
                simp [List.map_cons, ← ih hrest]
          · exact absurd h (by simp)
      | vInt iv => simp [strBytes] at h
      | vFloat bits => simp [strBytes] at h

theorem strBytes_valid {col : List Value} {ss : List (List Nat)}
    (h : strBytes col = .ok ss) : ∀ s ∈ ss, validUtf8 s = true := by
  induction col generalizing ss with
  | nil =>
      intro s hs
      simp only [strBytes, Except.ok.injEq] at h
      rw [← h] at hs
      simp at hs
  | cons v rest ih =>
      cases v with
      | vStr b =>
          simp only [strBytes] at h
          split at h
          · rename_i hb
            cases hrest : strBytes rest with
            | error e => rw [hrest] at h; simp at h
            | ok tl =>
                rw [hrest] at h; simp only [ok_bind, Except.ok.injEq] at h
                subst h
                intro s hs
                rcases List.mem_cons.mp hs with rfl | hs'
                · exact hb
                · exact ih hrest s hs'
          · exact absurd h (by simp)
      | vInt iv => simp [strBytes] at h
      | vFloat bits => simp [strBytes] at h

@[simp] theorem stringOffsets_length (ss : List (List Nat)) (c : Nat) :
    (stringOffsets c ss).length = ss.length + 1 := by
  induction ss generalizing c with
  | nil => rfl
  | cons s rest ih => simp [stringOffsets, ih]

theorem stringOffsets_cons_shape (ss : List (List Nat)) (c : Nat) :
    ∃ l, stringOffsets c ss = c :: l := by
  cases ss <;> simp [stringOffsets]

theorem stringOffsets_getLastD (ss : List (List Nat)) (c d : Nat) :
    (stringOffsets c ss).getLastD d = c + (ss.map List.length).sum := by
  induction ss generalizing c with
  | nil => simp [stringOffsets]
  | cons s rest ih =>
      obtain ⟨l, hl⟩ := stringOffsets_cons_shape rest (c + s.length)
      simp only [stringOffsets, List.map_cons, List.sum_cons]
      rw [show (c :: stringOffsets (c + s.length) rest).getLastD d
            = (stringOffsets (c + s.length) rest).getLastD d by
          rw [hl]; rfl]
      rw [ih (c + s.length)]
      ring

theorem stringOffsets_mem_le {ss : List (List Nat)} {c o : Nat}
    (h : o ∈ stringOffsets c ss) : o ≤ c + (ss.map List.length).sum := by
  induction ss generalizing c with
  | nil => simp [stringOffsets] at h; omega
  | cons s rest ih =>
      simp only [stringOffsets, List.mem_cons] at h
      rcases h with h | h
      · omega
      · have := ih h
        simp only [List.map_cons, List.sum_cons]
        omega

theorem flatMap_packLE4_length (os : List Nat) :
    (os.flatMap (packLE 4)).length = 4 * os.length := by
  induction os with
  | nil => rfl
  | cons o rest ih => simp [List.flatMap_cons, ih]; ring

theorem readOffsets_flatMap {os : List Nat} (rest : List Nat)
    (h : ∀ o ∈ os, o < 256 ^ 4) :
    readOffsets (os.flatMap (packLE 4) ++ rest) os.length = os := by
  induction os with
  | nil => rfl
  | cons o tl ih =>
      simp only [List.flatMap_cons, List.length_cons, readOffsets, List.append_assoc]
      rw [show (packLE 4 o ++ (tl.flatMap (packLE 4) ++ rest)).take 4 = packLE 4 o by
            rw [← packLE_length 4 o]; exact List.take_left _ _,
          show (packLE 4 o ++ (tl.flatMap (packLE 4) ++ rest)).drop 4
              = tl.flatMap (packLE 4) ++ rest by
            rw [← packLE_length 4 o]; exact List.drop_left _ _,
          unpackLE_packLE_of_lt (h o (by simp)),
          ih (fun o' ho' => h o' (by simp [ho']))]

theorem sliceStrings_stringOffsets (ss : List (List Nat)) :
    ∀ (c : Nat) (ds t : List Nat), (∀ s ∈ ss, validUtf8 s = true) →
    ds.drop c = ss.flatten ++ t →
    sliceStrings ds (stringOffsets c ss) = .ok ss := by
  induction ss with
  | nil => intro c ds t _ _; rfl
  | cons s rest ih =>
      intro c ds t hv hdrop
      obtain ⟨l, hl⟩ := stringOffsets_cons_shape rest (c + s.length)
      have hdrop' : ds.drop (c + s.length) = rest.flatten ++ t := by
        rw [← List.drop_drop, hdrop]
        simp only [List.flatten_cons, List.append_assoc]
        exact List.drop_left _ _
      have hslice : (ds.drop c).take (c + s.length - c) = s := by
        rw [Nat.add_sub_cancel_left, hdrop]
        simp only [List.flatten_cons, List.append_assoc]
        exact List.take_left _ _
      simp only [stringOffsets, hl, sliceStrings]
      rw [if_neg (by omega), hslice, if_pos (hv s (by simp)), ← hl,
        ih (c + s.length) ds t (fun s' hs' => hv s' (by simp [hs'])) hdrop']
      rfl

theorem serialize_string_length {col : List Value} {b : List Nat}
    (h : serialize_string_column col = .ok b) :
    ∃ ss, strBytes col = .ok ss ∧ col = ss.map Value.vStr ∧
      (ss.map List.length).sum ≤ UINT32_MAX ∧
      b = (stringOffsets 0 ss).flatMap (packLE 4) ++ ss.flatten ∧
      b.length = 4 * (col.length + 1) + (ss.map List.length).sum := by
  unfold serialize_string_column at h
  cases hss : strBytes col with
  | error e => simp [hss] at h
  | ok ss =>
      rw [hss] at h; simp only [ok_bind] at h
      split at h
      · exact absurd h (by simp)
      · rename_i htot
        simp only [Except.ok.injEq] at h
        refine ⟨ss, rfl, strBytes_ok hss, by omega, h.symm, ?_⟩
        have hcl : col.length = ss.length := by rw [strBytes_ok hss]; simp
        rw [← h, List.length_append, flatMap_packLE4_length,
            List.length_flatten, stringOffsets_length, hcl]

theorem parse_string_roundtrip {col : List Value} {b : List Nat}
    (h : serialize_string_column col = .ok b) :
    ∃ ss, parse_string_block b col.length = .ok ss ∧ ss.map Value.vStr = col := by
  obtain ⟨ss, hsb, hcol, htot, hb, hblen⟩ := serialize_string_length h
  have hcl : col.length = ss.length := by rw [hcol]; simp
  refine ⟨ss, ?_, hcol.symm⟩
  unfold parse_string_block
  rw [if_neg (by omega)]
  have hoffs : readOffsets b (col.length + 1) = stringOffsets 0 ss := by
    rw [hb, hcl, ← stringOffsets_length ss 0]
    refine readOffsets_flatMap ss.flatten fun o ho => ?_
    have h1 := stringOffsets_mem_le ho
    have h2 : UINT32_MAX = 4294967295 := by norm_num [UINT32_MAX]
    have h3 : (256 : Nat) ^ 4 = 4294967296 := by norm_num
    omega
  have hds : b.drop ((col.length + 1) * 4) = ss.flatten := by
    rw [hb, show (col.length + 1) * 4 = ((stringOffsets 0 ss).flatMap (packLE 4)).length by
        rw [flatMap_packLE4_length, stringOffsets_length, hcl]; ring]
    exact List.drop_left _ _
  rw [hoffs, hds]
  rw [if_neg (by
    rw [stringOffsets_getLastD, List.length_flatten]
    omega)]
  exact sliceStrings_stringOffsets ss 0 ss.flatten [] (strBytes_valid hsb) (by simp)

/-! ## Header codec lemmas -/

theorem packU_bind_ok {w x : Nat} {f : List Nat → Except String (List Nat)}
    {b : List Nat} (h : (packU w x >>= f) = .ok b) :
    x < 256 ^ w ∧ f (packLE w x) = .ok b := by
  unfold packU at h
  split at h
  · exact ⟨‹_›, h⟩
  · simp at h

theorem buildEntry_ok {e : ColEntry} {b : List Nat} (h : buildEntry e = .ok b) :
    e.name.length < 256 ^ 2 ∧ e.type < 256 ^ 1 ∧ e.flags < 256 ^ 1 ∧
    e.num_values < 256 ^ 8 ∧ e.offset < 256 ^ 8 ∧ e.comp_size < 256 ^ 8 ∧
    e.uncomp_size < 256 ^ 8 ∧
    b = packLE 2 e.name.length ++ (e.name ++ (packLE 1 e.type ++ (packLE 1 e.flags ++
        (packLE 8 e.num_values ++ (packLE 8 e.offset ++ (packLE 8 e.comp_size ++
        packLE 8 e.uncomp_size)))))) := by
  unfold buildEntry at h
  split at h
  · exact absurd h (by simp)
  · obtain ⟨h1, h⟩ := packU_bind_ok h
    obtain ⟨h2, h⟩ := packU_bind_ok h
    obtain ⟨h3, h⟩ := packU_bind_ok h
    obtain ⟨h4, h⟩ := packU_bind_ok h
    obtain ⟨h5, h⟩ := packU_bind_ok h
    obtain ⟨h6, h⟩ := packU_bind_ok h
    obtain ⟨h7, h⟩ := packU_bind_ok h
    simp only [Except.ok.injEq] at h
    exact ⟨h1, h2, h3, h4, h5, h6, h7, by rw [← h]; simp [List.append_assoc]⟩

theorem buildEntry_length {e : ColEntry} {b : List Nat}
    (h : buildEntry e = .ok b) : b.length = 36 + e.name.length := by
  obtain ⟨-, -, -, -, -, -, -, hb⟩ := buildEntry_ok h
  subst hb
  simp [List.length_append]
  omega

theorem buildEntries_length {es : List ColEntry} {body : List Nat}
    (h : buildEntries es = .ok body) :
    body.length = (es.map (fun e => 36 + e.name.length)).sum := by
  induction es generalizing body with
  | nil =>
      simp only [buildEntries, Except.ok.injEq] at h
      subst h; rfl
  | cons e rest ih =>
      unfold buildEntries at h
      cases hb : buildEntry e with
      | error err => simp [hb] at h
      | ok b =>
          rw [hb] at h
          cases htl : buildEntries rest with
          | error err => simp [htl] at h
          | ok tl =>
              rw [htl] at h
              simp only [ok_bind, Except.ok.injEq] at h
              subst h
              simp [List.length_append, buildEntry_length hb, ih htl]

theorem parseEntries_cons {e : ColEntry} {b : List Nat}
    (h : buildEntry e = .ok b) (r : List Nat) (k : Nat) :
    parseEntries (b ++ r) (k + 1) = (parseEntries r k).map (fun l => e :: l) := by
  obtain ⟨h1, h2, h3, h4, h5, h6, h7, hb⟩ := buildEntry_ok h
  subst hb
  simp only [parseEntries, List.append_assoc]
  rw [readExact_append _ (packLE_length 2 e.name.length)]
  simp only [ok_bind]
  rw [unpackLE_packLE_of_lt h1]
  rw [readExact_append _ rfl]
  simp only [ok_bind]
  rw [readExact_append _ (packLE_length 1 e.type)]
  simp only [ok_bind]
  rw [readExact_append _ (packLE_length 1 e.flags)]
  simp only [ok_bind]
  rw [readExact_append _ (packLE_length 8 e.num_values)]
  simp only [ok_bind]
  rw [readExact_append _ (packLE_length 8 e.offset)]
  simp only [ok_bind]
  rw [readExact_append _ (packLE_length 8 e.comp_size)]
  simp only [ok_bind]
  rw [readExact_append _ (packLE_length 8 e.uncomp_size)]
  simp only [ok_bind]
  rw [unpackLE_packLE_of_lt h2, unpackLE_packLE_of_lt h3, unpackLE_packLE_of_lt h4,
      unpackLE_packLE_of_lt h5, unpackLE_packLE_of_lt h6, unpackLE_packLE_of_lt h7]
  cases parseEntries r k <;> rfl

theorem parseEntries_buildEntries {es : List ColEntry} {body : List Nat}
    (h : buildEntries es = .ok body) (r : List Nat) :
    parseEntries (body ++ r) es.length = .ok es := by
  induction es generalizing body r with
  | nil => simp [buildEntries] at h; simp [← h, parseEntries]
  | cons e rest ih =>
      unfold buildEntries at h
      cases hb : buildEntry e with
      | error err => simp [hb] at h
      | ok b =>
          rw [hb] at h
          cases htl : buildEntries rest with
          | error err => simp [htl] at h
          | ok tl =>
              rw [htl] at h
              simp only [ok_bind, Except.ok.injEq] at h
              subst h
              rw [List.length_cons, List.append_assoc, parseEntries_cons hb, ih htl]
              rfl

theorem build_header_ok {sig rows : Nat} {es : List ColEntry} {hdr : List Nat}
    (h : build_header sig rows es = .ok hdr) :
    rows < 256 ^ 8 ∧ es.length < 256 ^ 4 ∧
    ∃ body, buildEntries es = .ok body ∧
      hdr = packLE 4 (sig % 2 ^ 32) ++ (packLE 8 rows ++ (packLE 4 es.length ++ body)) := by
  unfold build_header at h
  obtain ⟨hr, h⟩ := packU_bind_ok h
  obtain ⟨hc, h⟩ := packU_bind_ok h
  cases hbody : buildEntries es with
  | error err => simp [hbody] at h
  | ok body =>
      rw [hbody] at h
      simp only [ok_bind, Except.ok.injEq] at h
      exact ⟨hr, hc, body, rfl, by rw [← h]; simp [List.append_assoc]⟩

theorem parse_build_header {sig rows : Nat} {es : List ColEntry} {hdr : List Nat}
    (h : build_header sig rows es = .ok hdr) :
    parse_header hdr = .ok (sig % 2 ^ 32, rows, es) := by
  obtain ⟨hr, hc, body, hbody, hhdr⟩ := build_header_ok h
  subst hhdr
  unfold parse_header
  rw [readExact_append _ (packLE_length 4 _)]
  simp only [ok_bind]
  rw [readExact_append _ (packLE_length 8 rows)]
  simp only [ok_bind]
  rw [readExact_append _ (packLE_length 4 es.length)]
  simp only [ok_bind]
  have hsig : sig % 2 ^ 32 < 256 ^ 4 := by
    have h32 : (256 : Nat) ^ 4 = 2 ^ 32 := by norm_num
    rw [h32]
    exact Nat.mod_lt _ (by norm_num)
  rw [unpackLE_packLE_of_lt hsig, unpackLE_packLE_of_lt hr, unpackLE_packLE_of_lt hc]
  rw [show body = body ++ [] by simp, parseEntries_buildEntries hbody []]
  rfl

theorem build_header_length {sig rows : Nat} {es : List ColEntry} {hdr : List Nat}
    (h : build_header sig rows es = .ok hdr) :
    hdr.length = 16 + (es.map (fun e => 36 + e.name.length)).sum := by
  obtain ⟨-, -, body, hbody, hhdr⟩ := build_header_ok h
  subst hhdr
  simp [List.length_append, buildEntries_length hbody]
  omega

/-! ## Block dispatch lemmas -/

theorem serializeByType_type {t : Nat} {col : List Value} {u : List Nat}
    (h : serializeByType t col = .ok u) : t = 0 ∨ t = 1 ∨ t = 2 := by
  unfold serializeByType at h
  by_contra hc
  push_neg at hc
  rw [if_neg hc.1, if_neg hc.2.1, if_neg hc.2.2] at h
  exact absurd h (by simp)

theorem serializeByType_parse {t : Nat} {col : List Value} {u : List Nat}
    (h : serializeByType t col = .ok u) :
    parseByType t u col.length = .ok col := by
  unfold serializeByType at h
  unfold parseByType
  split at h
  · subst ‹t = 0›
    rw [if_pos rfl]
    obtain ⟨hp, hv⟩ := parse_int32_roundtrip h
    rw [hp, map_ok, hv]
  · split at h
    · subst ‹t = 1›
      rw [if_neg (by omega), if_pos rfl]
      obtain ⟨hp, hv⟩ := parse_float64_roundtrip h
      rw [hp, map_ok, hv]
    · split at h
      · subst ‹t = 2›
        rw [if_neg (by omega), if_neg (by omega), if_pos rfl]
        obtain ⟨ss, hp, hv⟩ := parse_string_roundtrip h
        rw [hp, map_ok, hv]
      · exact absurd h (by simp)

theorem serializeByType_empty {t : Nat} {col : List Value} {u : List Nat}
    (h : serializeByType t col = .ok u) (hz : u.length = 0) : col = [] := by
  unfold serializeByType at h
  split at h
  · have := serialize_int32_length h
    have : col.length = 0 := by omega
    exact List.length_eq_zero.mp this
  · split at h
    · have := serialize_float64_length h
      have : col.length = 0 := by omega
      exact List.length_eq_zero.mp this
    · split at h
      · obtain ⟨ss, -, -, -, -, hlen⟩ := serialize_string_length h
        omega
      · exact absurd h (by simp)

/-! ## Writer/reader block correspondence -/

theorem writeBlocks_metas_length {comp : List Nat → List Nat}
    {tcols : List (Nat × List Value)} :
    ∀ {pos : Nat} {metas : List (Nat × Nat × Nat)} {body : List Nat},
    writeBlocks comp pos tcols = .ok (metas, body) → metas.length = tcols.length := by
  induction tcols with
  | nil =>
      intro pos metas body h
      simp only [writeBlocks, Except.ok.injEq, Prod.mk.injEq] at h
      simp [← h.1]
  | cons tc tcs ih =>
      intro pos metas body h
      obtain ⟨t, col⟩ := tc
      unfold writeBlocks at h
      cases hser : serializeByType t col with
      | error e => simp [hser] at h
      | ok u =>
          rw [hser] at h
          simp only [ok_bind] at h
          cases hws : writeBlocks comp (pos + (comp u).length) tcs with
          | error e => simp [hws] at h
          | ok p =>
              obtain ⟨ms, bd⟩ := p
              rw [hws] at h
              simp only [ok_bind, Except.ok.injEq, Prod.mk.injEq] at h
              rw [← h.1]
              simp [ih hws]

theorem readColumns_writeBlocks {comp : List Nat → List Nat}
    {decomp : List Nat → Except String (List Nat)}
    (hcd : ∀ b, decomp (comp b) = .ok b) :
    ∀ (tcols : List (Nat × List Value)) (names : List (List Nat)) (pos : Nat)
      (metas : List (Nat × Nat × Nat)) (body file : List Nat),
    writeBlocks comp pos tcols = .ok (metas, body) →
    file.drop pos = body →
    names.length = tcols.length →
    readColumns decomp file (mkEntries names tcols metas) =
      .ok (List.zipWith (fun n tc => (n, tc.2)) names tcols) := by
  intro tcols
  induction tcols with
  | nil =>
      intro names pos metas body file h _ hlen
      simp only [writeBlocks, Except.ok.injEq, Prod.mk.injEq] at h
      cases names with
      | nil => rw [← h.1]; rfl
      | cons n ns => simp at hlen
  | cons tc tcs ih =>
      intro names pos metas body file h hdrop hlen
      obtain ⟨t, col⟩ := tc
      cases names with
      | nil => simp at hlen
      | cons n ns =>
          unfold writeBlocks at h
          cases hser : serializeByType t col with
          | error e => simp [hser] at h
          | ok u =>
              rw [hser] at h
              simp only [ok_bind] at h
              cases hws : writeBlocks comp (pos + (comp u).length) tcs with
              | error e => simp [hws] at h
              | ok p =>
                  obtain ⟨ms, bd⟩ := p
                  rw [hws] at h
                  simp only [ok_bind, Except.ok.injEq, Prod.mk.injEq] at h
                  obtain ⟨hmet, hbod⟩ := h
                  subst hmet hbod
                  have hdrop' : file.drop (pos + (comp u).length) = bd := by
                    rw [← List.drop_drop, hdrop, List.drop_left]
                  have hread : readColumn decomp file
                      { name := n, type := t, flags := 0, num_values := col.length,
                        offset := pos, comp_size := (comp u).length,
                        uncomp_size := u.length } = .ok col := by
                    unfold readColumn
                    split
                    · rename_i hz
                      rw [serializeByType_empty hser hz.2]
                    · simp only
                      rw [show file.drop pos = comp u ++ bd from hdrop,
                          readExact_append bd rfl]
                      simp only [ok_bind]
                      rw [hcd u]
                      simp only [ok_bind, if_neg (by omega : ¬ u.length ≠ u.length)]
                      exact serializeByType_parse hser
                  simp only [mkEntries, readColumns, List.zipWith_cons_cons]
                  rw [hread]
                  simp only [ok_bind]
                  rw [ih ns (pos + (comp u).length) ms bd file hws hdrop' (by simpa using hlen)]
                  rfl

/-! ## Writer decomposition -/

theorem zipPair_map_fst {names : List (List Nat)} {tcols : List (Nat × List Value)}
    (h : names.length = tcols.length) :
    (List.zipWith (fun n tc => (n, tc.2)) names tcols).map Prod.fst = names := by
  induction names generalizing tcols with
  | nil => simp
  | cons n ns ih =>
      cases tcols with
      | nil => simp at h
      | cons tc tcs => simp [List.zipWith_cons_cons, ih (by simpa using h)]

theorem zipPair_map_snd {names : List (List Nat)} {tcols : List (Nat × List Value)}
    (h : names.length = tcols.length) :
    (List.zipWith (fun n tc => (n, tc.2)) names tcols).map Prod.snd
      = tcols.map Prod.snd := by
  induction names generalizing tcols with
  | nil => cases tcols with
    | nil => simp
    | cons tc tcs => simp at h
  | cons n ns ih =>
      cases tcols with
      | nil => simp at h
      | cons tc tcs => simp [List.zipWith_cons_cons, ih (by simpa using h)]

theorem zip_map_snd {types : List Nat} {cols : List (List Value)}
    (h : types.length = cols.length) :
    (types.zip cols).map Prod.snd = cols := by
  induction types generalizing cols with
  | nil => cases cols with
    | nil => simp
    | cons c cs => simp at h
  | cons t ts ih =>
      cases cols with
      | nil => simp at h
      | cons c cs => simp [List.zip_cons_cons, ih (by simpa using h)]

/-- Everything a successful `write_cstm` call guarantees about its output
file: the validation facts, the two header builds, the block pass, and the
byte-level layout of the file. -/
theorem write_cstm_ok {comp : List Nat → List Nat} {names : List (List Nat)}
    {types : List Nat} {cols : List (List Value)} {sig : Nat} {file : List Nat}
    (h : write_cstm comp names types cols sig = .ok file) :
    names.length = types.length ∧ types.length = cols.length ∧
    (cols.all fun col => col.length = (cols.headD []).length) ∧
    ∃ ih metas body fh,
      build_header sig (cols.headD []).length
        (mkEntries names (types.zip cols) (List.replicate cols.length (0, 0, 0)))
        = .ok ih ∧
      ih.length < 256 ^ 8 ∧
      writeBlocks comp (HEADER_PREFIX_LEN + ih.length) (types.zip cols)
        = .ok (metas, body) ∧
      build_header sig (cols.headD []).length (mkEntries names (types.zip cols) metas)
        = .ok fh ∧
      fh.length = ih.length ∧
      file = MAGIC ++ [VERSION] ++ List.replicate 7 0
        ++ packLE 8 ih.length ++ fh ++ body := by
  unfold write_cstm at h
  split at h
  · exact absurd h (by simp)
  · rename_i hlens
    rw [Decidable.not_not] at hlens
    dsimp only [] at h
    split at h
    · exact absurd h (by simp)
    · rename_i hall
      rw [Decidable.not_not] at hall
      refine ⟨hlens.1, hlens.2, hall, ?_⟩
      cases hih : build_header sig (cols.headD []).length
          (mkEntries names (types.zip cols) (List.replicate cols.length (0, 0, 0))) with
      | error e => rw [hih] at h; simp at h
      | ok ihdr =>
          rw [hih] at h
          simp only [ok_bind] at h
          obtain ⟨hbound, h⟩ := packU_bind_ok h
          cases hws : writeBlocks comp (HEADER_PREFIX_LEN + ihdr.length) (types.zip cols) with
          | error e => rw [hws] at h; simp at h
          | ok p =>
              obtain ⟨metas, body⟩ := p
              rw [hws] at h
              simp only [ok_bind] at h
              cases hfh : build_header sig (cols.headD []).length
                  (mkEntries names (types.zip cols) metas) with
              | error e => rw [hfh] at h; simp at h
              | ok fh =>
                  rw [hfh] at h
                  simp only [ok_bind] at h
                  split at h
                  · exact absurd h (by simp)
                  · rename_i hfl
                    rw [Decidable.not_not] at hfl
                    simp only [Except.ok.injEq] at h
                    refine ⟨ihdr, metas, body, fh, ?_, hbound, hws, hfh, hfl,
                      by rw [← h]⟩
                    rfl

/-- The header phase of a read of a written file recovers the final
descriptors. -/
theorem readHeaderPhase_write {comp : List Nat → List Nat} {names : List (List Nat)}
    {types : List Nat} {cols : List (List Value)} {sig : Nat} {file : List Nat}
    (h : write_cstm comp names types cols sig = .ok file) :
    ∃ metas body ihlen,
      writeBlocks comp (HEADER_PREFIX_LEN + ihlen) (types.zip cols) = .ok (metas, body) ∧
      file.drop (HEADER_PREFIX_LEN + ihlen) = body ∧
      readHeaderPhase file = .ok (sig % 2 ^ 32, (cols.headD []).length,
        mkEntries names (types.zip cols) metas) := by
  obtain ⟨-, -, -, ihdr, metas, body, fh, hih, hbound, hws, hfh, hfl, hfile⟩ :=
    write_cstm_ok h
  refine ⟨metas, body, ihdr.length, hws, ?_, ?_⟩
  · rw [hfile]
    rw [show MAGIC ++ [VERSION] ++ List.replicate 7 0 ++ packLE 8 ihdr.length ++ fh ++ body
          = (MAGIC ++ [VERSION] ++ List.replicate 7 0 ++ packLE 8 ihdr.length ++ fh) ++ body
        by simp [List.append_assoc]]
    rw [show HEADER_PREFIX_LEN + ihdr.length
          = (MAGIC ++ [VERSION] ++ List.replicate 7 0 ++ packLE 8 ihdr.length ++ fh).length by
        simp [MAGIC, HEADER_PREFIX_LEN, hfl]; omega]
    exact List.drop_left _ _
  · subst hfile
    unfold readHeaderPhase
    rw [show MAGIC ++ [VERSION] ++ List.replicate 7 0 ++ packLE 8 ihdr.length ++ fh ++ body
          = MAGIC ++ ([VERSION] ++ (List.replicate 7 0 ++ (packLE 8 ihdr.length ++ (fh ++ body))))
        by simp [List.append_assoc]]
    rw [readExact_append _ (by rfl : MAGIC.length = 4)]
    simp only [ok_bind]
    rw [if_neg (by simp)]
    rw [readExact_append _ (by rfl : [VERSION].length = 1)]
    simp only [ok_bind]
    rw [readExact_append _ (by simp : (List.replicate 7 (0 : Nat)).length = 7)]
    simp only [ok_bind]
    rw [readExact_append _ (packLE_length 8 ihdr.length)]
    simp only [ok_bind]
    rw [unpackLE_packLE_of_lt hbound]
    rw [show fh ++ body = fh ++ body from rfl, readExact_append body hfl]
    simp only [ok_bind]
    exact parse_build_header hfh

/-- Reading back a written file with no column selection recovers the
declared names and all columns, row-major. -/
theorem read_write_full {comp : List Nat → List Nat}
    {decomp : List Nat → Except String (List Nat)}
    (hcd : ∀ b, decomp (comp b) = .ok b)
    {names : List (List Nat)} {types : List Nat} {cols : List (List Value)}
    {sig : Nat} {file : List Nat}
    (hw : write_cstm comp names types cols sig = .ok file) :
    read_cstm decomp file none
      = .ok (names, transposeRows (cols.headD []).length cols) := by
  obtain ⟨metas, body, ihlen, hws, hdrop, hrhp⟩ := readHeaderPhase_write hw
  obtain ⟨hl1, hl2, hall, -⟩ := write_cstm_ok hw
  have hnt : names.length = (types.zip cols).length := by
    rw [List.length_zip]; omega
  unfold read_cstm
  rw [hrhp]
  simp only [ok_bind]
  rw [readColumns_writeBlocks hcd (types.zip cols) names (HEADER_PREFIX_LEN + ihlen)
        metas body file hws hdrop hnt]
  simp only [ok_bind]
  have hlen : (List.zipWith (fun n tc => (n, tc.2)) names (types.zip cols)).length
      = names.length := by
    rw [List.length_zipWith]
    omega
  by_cases hnil : names = []
  · subst hnil
    have hcols : cols = [] := by
      have : cols.length = 0 := by simpa using (hl1.trans hl2).symm
      exact List.length_eq_zero.mp this
    subst hcols
    rfl
  · rw [if_neg (by
      rw [hlen]
      simpa using hnil)]
    rw [zipPair_map_fst hnt, zipPair_map_snd hnt, zip_map_snd hl2]
    rw [if_neg (by simpa using hall)]

/-! ## Column resolution lemmas -/

theorem foldl_dict_no_match {n : List Nat} {meta : List ColEntry}
    (h : ∀ c ∈ meta, c.name ≠ n) (init : Option ColEntry) :
    meta.foldl (fun acc c => if c.name = n then some c else acc) init = init := by
  induction meta generalizing init with
  | nil => rfl
  | cons c rest ih =>
      simp only [List.foldl_cons]
      rw [if_neg (h c (by simp))]
      exact ih (fun c' hc' => h c' (by simp [hc'])) init

theorem dictLookup_eq_none {n : List Nat} {meta : List ColEntry}
    (h : ∀ c ∈ meta, c.name ≠ n) : dictLookup meta n = none :=
  foldl_dict_no_match h none

theorem resolveColumns_error {meta : List ColEntry} {sel : List (List Nat)}
    (hmiss : ∃ n ∈ sel, dictLookup meta n = none) :
    resolveColumns meta sel = .error "Requested column not found in file" := by
  induction sel with
  | nil => simp at hmiss
  | cons n rest ih =>
      unfold resolveColumns
      cases hd : dictLookup meta n with
      | none => rfl
      | some c =>
          obtain ⟨m, hm, hnone⟩ := hmiss
          rcases List.mem_cons.mp hm with rfl | hm'
          · rw [hd] at hnone; exact absurd hnone (by simp)
          · rw [ih ⟨m, hm', hnone⟩]
            rfl

/-! ## Claims -/

/-- Claim C1: for every list of column names, matching type ids in
{INT32, FLOAT64, STRING}, and equal-length column-major value lists with
valid per-type values (all packed into a successful `write_cstm` call, and
with a lossless compression codec), reading the written file with no column
selection returns the original names in declaration order and rows equal to
the row-major transpose of the original columns, with integers, UTF-8
strings and float bit patterns bit-exact. -/
theorem claim1_roundtrip (comp : List Nat → List Nat)
    (decomp : List Nat → Except String (List Nat))
    (hcd : ∀ b, decomp (comp b) = .ok b)
    (names : List (List Nat)) (types : List Nat) (cols : List (List Value))
    (sig : Nat) (file : List Nat)
    (hw : write_cstm comp names types cols sig = .ok file) :
    read_cstm decomp file none
      = .ok (names, rowMajorTranspose (cols.headD []).length cols) :=
  read_write_full hcd hw

/-- Witness for C1: one INT32 column `id:[1]`, identity codec: the write
succeeds with the concrete file bytes and the read returns the name and the
single row. -/
theorem claim1_roundtrip_witness :
    write_cstm cId [[105, 100]] [0] [[Value.vInt 1]] 0 = .ok exFile1 ∧
    read_cstm dId exFile1 none = .ok ([[105, 100]], [[Value.vInt 1]]) :=
  ⟨rfl, claim1_roundtrip cId dId (fun _ => rfl)
    [[105, 100]] [0] [[Value.vInt 1]] 0 exFile1 rfl⟩

/-- Claim C5: for every file whose prefix and header parse (a valid file)
and every selection list containing a name absent from the header, read_cstm
fails with the column-not-found error and returns no result at all. -/
theorem claim5_missing_column (decomp : List Nat → Except String (List Nat))
    (file : List Nat) (s r : Nat) (meta : List ColEntry) (sel : List (List Nat))
    (hh : readHeaderPhase file = .ok (s, r, meta))
    (hmiss : ∃ n ∈ sel, ∀ c ∈ meta, c.name ≠ n) :
    read_cstm decomp file (some sel) = .error "Requested column not found in file" := by
  unfold read_cstm
  rw [hh]
  simp only [ok_bind]
  obtain ⟨n, hn, habs⟩ := hmiss
  rw [resolveColumns_error ⟨n, hn, dictLookup_eq_none habs⟩]
  rfl

/-- Witness for C5: requesting column `z` from the one-column file `exFile1`
(whose only column is `id`) fails with the column-not-found error. -/
theorem claim5_missing_column_witness :
    read_cstm dId exFile1 (some [[122]]) = .error "Requested column not found in file" :=
  claim5_missing_column dId exFile1 0 1
    [{ name := [105, 100], type := 0, flags := 0, num_values := 1,
       offset := 74, comp_size := 4, uncomp_size := 4 }]
    [[122]] rfl ⟨[122], by simp, by decide⟩

/-- Claim C6: when the per-column value lists do not all have the same
length, `write_cstm` raises the column-length validation error (before the
output file is even opened in the source), producing no file bytes. -/
theorem claim6_unequal_lengths (comp : List Nat → List Nat)
    (names : List (List Nat)) (types : List Nat) (cols : List (List Value))
    (sig : Nat)
    (h1 : names.length = types.length) (h2 : types.length = cols.length)
    (hbad : ∃ c ∈ cols, c.length ≠ (cols.headD []).length) :
    write_cstm comp names types cols sig = .error "Column length != expected" := by
  unfold write_cstm
  rw [if_neg (by simp [h1, h2])]
  dsimp only []
  rw [if_pos]
  simp only [List.all_eq_true, decide_eq_true_eq]
  push_neg
  exact hbad

/-- Witness for C6: two columns of lengths 1 and 0 are rejected. -/
theorem claim6_unequal_lengths_witness :
    write_cstm cId [[97], [98]] [0, 0] [[Value.vInt 1], []] 0
      = .error "Column length != expected" :=
  claim6_unequal_lengths cId [[97], [98]] [0, 0] [[Value.vInt 1], []] 0 rfl rfl
    ⟨[], by simp, by decide⟩

/-- Claim C10: for every file whose prefix and header parse, selecting the
empty column list (not `None`) returns empty names and no rows, whatever
the file's columns and rows. -/
theorem claim10_empty_selection (decomp : List Nat → Except String (List Nat))
    (file : List Nat) (s r : Nat) (meta : List ColEntry)
    (hh : readHeaderPhase file = .ok (s, r, meta)) :
    read_cstm decomp file (some []) = .ok ([], []) := by
  unfold read_cstm
  rw [hh]
  simp only [ok_bind]
  rfl

/-- Witness for C10: the one-column, one-row file `exFile1` read with the
empty selection returns `([], [])`. -/
theorem claim10_empty_selection_witness :
    read_cstm dId exFile1 (some []) = .ok ([], []) :=
  claim10_empty_selection dId exFile1 0 1
    [{ name := [105, 100], type := 0, flags := 0, num_values := 1,
       offset := 74, comp_size := 4, uncomp_size := 4 }] rfl

/-! ## Claims C2 and C9 -/

theorem map_name_of_forall2 {e₁ e₂ : List ColEntry}
    (hsk : List.Forall₂ (fun a b => a.name = b.name ∧ a.type = b.type ∧
      a.flags = b.flags ∧ a.num_values = b.num_values) e₁ e₂) :
    e₁.map (fun e => 36 + e.name.length) = e₂.map (fun e => 36 + e.name.length) := by
  induction hsk with
  | nil => rfl
  | cons ha _ ih => simp [ha.1, ih]

/-- Claim C2: the byte length of `build_header` depends only on the schema
skeleton (names, types, flags, value counts), never on the offset and size
payloads; two headers whose entries agree on the skeleton encode to the same
length — in particular all-zero and arbitrary payloads. -/
theorem claim2_header_length_invariance (sig rows : Nat) (e₁ e₂ : List ColEntry)
    (h₁ h₂ : List Nat)
    (hsk : List.Forall₂ (fun a b => a.name = b.name ∧ a.type = b.type ∧
      a.flags = b.flags ∧ a.num_values = b.num_values) e₁ e₂)
    (hb₁ : build_header sig rows e₁ = .ok h₁)
    (hb₂ : build_header sig rows e₂ = .ok h₂) :
    h₁.length = h₂.length := by
  rw [build_header_length hb₁, build_header_length hb₂, map_name_of_forall2 hsk]

/-- Witness for C2: one descriptor with zero payload fields against the same
skeleton with non-zero offset/sizes. -/
theorem claim2_header_length_invariance_witness :
    ((build_header 0 3 [ColEntry.mk [97] 0 0 3 0 0 0]).toOption.getD []).length
    = ((build_header 0 3 [ColEntry.mk [97] 0 0 3 1000 150 400]).toOption.getD []).length :=
  claim2_header_length_invariance 0 3
    [ColEntry.mk [97] 0 0 3 0 0 0] [ColEntry.mk [97] 0 0 3 1000 150 400]
    ((build_header 0 3 [ColEntry.mk [97] 0 0 3 0 0 0]).toOption.getD [])
    ((build_header 0 3 [ColEntry.mk [97] 0 0 3 1000 150 400]).toOption.getD [])
    (List.Forall₂.cons ⟨rfl, rfl, rfl, rfl⟩ List.Forall₂.nil) (by rfl) (by rfl)

/-- Claim C9: a zero-row column of any type encodes to a block that decodes
(with `num_values = 0`) back to the empty list, and the STRING encoding is
exactly the single 4-byte little-endian zero offset entry with an empty
data section. -/
theorem claim9_empty_columns :
    serialize_string_column [] = .ok (packLE 4 0) ∧
    packLE 4 0 = [0, 0, 0, 0] ∧
    parse_string_block [0, 0, 0, 0] 0 = .ok [] ∧
    serialize_int32_column [] = .ok [] ∧
    parse_int32_block [] 0 = .ok [] ∧
    serialize_float64_column [] = .ok [] ∧
    parse_float64_block [] 0 = .ok [] :=
  ⟨rfl, rfl, rfl, rfl, rfl, rfl, rfl⟩

/-! ## Claim C7 -/

theorem parseI32Loop_length (data : List Nat) (n : Nat) :
    (parseI32Loop data n).length = n := by
  induction n generalizing data with
  | zero => rfl
  | succ n ih => simp [parseI32Loop, ih]

theorem unpack_i32_range {l : List Nat} (h : ∀ b ∈ l, b < 256) (hlen : l.length ≤ 4) :
    I32_MIN ≤ unpack_i32 l ∧ unpack_i32 l ≤ I32_MAX := by
  have hu := unpackLE_lt h
  have hb : unpackLE l < 256 ^ 4 :=
    lt_of_lt_of_le hu (Nat.pow_le_pow_right (by norm_num) hlen)
  unfold unpack_i32 I32_MIN I32_MAX
  split <;> constructor <;> omega

theorem parseI32Loop_range {data : List Nat} (h : ∀ b ∈ data, b < 256) (n : Nat) :
    ∀ x ∈ parseI32Loop data n, I32_MIN ≤ x ∧ x ≤ I32_MAX := by
  induction n generalizing data with
  | zero => intro x hx; simp [parseI32Loop] at hx
  | succ n ih =>
      intro x hx
      simp only [parseI32Loop, List.mem_cons] at hx
      rcases hx with rfl | hx
      · exact unpack_i32_range (fun b hb => h b (List.mem_of_mem_take hb))
          (by simp [List.length_take])
      · exact ih (fun b hb => h b (List.mem_of_mem_drop hb)) x hx

/-- Claim C7: `parse_int32_block` returns exactly `num_values` signed 32-bit
integers when the block length is exactly `4 × num_values`, and fails with
the size-mismatch format error on every other length — never a shortened or
padded result. -/
theorem claim7_int32_block (data : List Nat) (n : Nat)
    (hbytes : ∀ b ∈ data, b < 256) :
    (data.length = 4 * n →
      ∃ l, parse_int32_block data n = .ok l ∧ l.length = n ∧
        ∀ x ∈ l, I32_MIN ≤ x ∧ x ≤ I32_MAX) ∧
    (data.length ≠ 4 * n →
      parse_int32_block data n = .error "INT32 block size mismatch") := by
  constructor
  · intro hlen
    exact ⟨parseI32Loop data n,
      by simp [parse_int32_block, hlen, Nat.mul_comm],
      parseI32Loop_length data n, parseI32Loop_range hbytes n⟩
  · intro hlen
    simp [parse_int32_block, Nat.mul_comm 4 n, hlen]
    omega

/-- Witness for C7: the 4-byte block `[5,0,0,0]` with one value parses to
`[5]`, and the same count with a 3-byte block is a format error. -/
theorem claim7_int32_block_witness :
    parse_int32_block [5, 0, 0, 0] 1 = .ok [5] ∧
    parse_int32_block [5, 0, 0] 1 = .error "INT32 block size mismatch" := by
  constructor
  · obtain ⟨l, hp, hlen, -⟩ :=
      (claim7_int32_block [5, 0, 0, 0] 1 (by decide)).1 rfl
    rw [hp]
    rw [show l = [5] by
      have : parse_int32_block [5, 0, 0, 0] 1 = .ok [5] := rfl
      rw [hp] at this
      simpa using this]
  · exact (claim7_int32_block [5, 0, 0] 1 (by decide)).2 (by decide)

/-! ## Claim C8 -/

@[simp] theorem readOffsets_length (data : List Nat) (k : Nat) :
    (readOffsets data k).length = k := by
  induction k generalizing data with
  | zero => rfl
  | succ k ih => simp [readOffsets, ih]

theorem sliceStrings_ok {offs : List Nat} (ds : List Nat)
    (h : ∀ i, i + 1 < offs.length → offs.getD i 0 ≤ offs.getD (i + 1) 0)
    (hv : ∀ i, i + 1 < offs.length → validUtf8
      ((ds.drop (offs.getD i 0)).take (offs.getD (i + 1) 0 - offs.getD i 0)) = true) :
    sliceStrings ds offs = .ok ((List.range (offs.length - 1)).map fun i =>
      (ds.drop (offs.getD i 0)).take (offs.getD (i + 1) 0 - offs.getD i 0)) := by
  induction offs with
  | nil => rfl
  | cons a tail ih =>
      cases tail with
      | nil => rfl
      | cons b rest =>
          unfold sliceStrings
          rw [if_neg (by
            have := h 0 (by simp)
            simpa using this)]
          have hv0 : validUtf8 ((ds.drop a).take (b - a)) = true := hv 0 (by simp)
          rw [if_pos hv0]
          rw [ih (fun i hi => h (i + 1) (by simpa using hi))
              (fun i hi => hv (i + 1) (by simpa using hi))]
          simp only [ok_bind, Except.ok.injEq, List.length_cons,
            Nat.add_sub_cancel]
          rw [List.range_succ_eq_map, List.map_cons, List.map_map]
          rfl

theorem sliceStrings_err_any {offs : List Nat} (ds : List Nat)
    (h : ∃ i, i + 1 < offs.length ∧ (offs.getD (i + 1) 0 < offs.getD i 0 ∨
      validUtf8 ((ds.drop (offs.getD i 0)).take
        (offs.getD (i + 1) 0 - offs.getD i 0)) = false)) :
    ∃ e, sliceStrings ds offs = .error e := by
  induction offs with
  | nil => obtain ⟨i, hi, -⟩ := h; simp at hi
  | cons a tail ih =>
      cases tail with
      | nil => obtain ⟨i, hi, -⟩ := h; simp at hi
      | cons b rest =>
          unfold sliceStrings
          by_cases hab : a > b
          · rw [if_pos hab]
            exact ⟨_, rfl⟩
          · rw [if_neg hab]
            by_cases hva : validUtf8 ((ds.drop a).take (b - a)) = true
            · rw [if_pos hva]
              obtain ⟨i, hi, hbad⟩ := h
              cases i with
              | zero =>
                  rcases hbad with hlt | hvf
                  · simp at hlt; omega
                  · simp only [List.getD_cons_zero, List.getD_cons_succ] at hvf
                    rw [hva] at hvf
                    exact absurd hvf (by simp)
              | succ j =>
                  obtain ⟨e, he⟩ := ih ⟨j, by simpa using hi, by simpa using hbad⟩
                  rw [he]
                  exact ⟨e, rfl⟩
            · rw [if_neg hva]
              exact ⟨_, rfl⟩

/-- Counterexample to claim C8 as stated: the block `offsets [0,1]` +
data byte `0xFF` with `num_values = 1` passes all three offset validations
(the table fits, the offsets are monotone, the final offset is within the
data section), yet `parse_string_block` does not return the slice — the
source's `raw.decode('utf-8')` raises `UnicodeDecodeError` because `0xFF`
is not valid UTF-8. -/
theorem claim8_counterexample :
    ¬(([0, 0, 0, 0, 1, 0, 0, 0, 255] : List Nat).length < (1 + 1) * 4) ∧
    (∀ i, i < 1 → (readOffsets [0, 0, 0, 0, 1, 0, 0, 0, 255] (1 + 1)).getD i 0
        ≤ (readOffsets [0, 0, 0, 0, 1, 0, 0, 0, 255] (1 + 1)).getD (i + 1) 0) ∧
    (readOffsets [0, 0, 0, 0, 1, 0, 0, 0, 255] (1 + 1)).getLastD 0
        ≤ ([0, 0, 0, 0, 1, 0, 0, 0, 255] : List Nat).length - (1 + 1) * 4 ∧
    validUtf8 [255] = false ∧
    parse_string_block [0, 0, 0, 0, 1, 0, 0, 0, 255] 1
      = .error "UnicodeDecodeError: invalid UTF-8 in string data" :=
  ⟨by decide, by decide, by decide, rfl, rfl⟩

/-- Amended claim C8: `parse_string_block` fails whenever the block is
shorter than the `(num_values+1) × 4`-byte offsets table, whenever some
adjacent offsets decrease, whenever the final offset exceeds the
data-section length, **or whenever some delimited slice is not valid
UTF-8** (the `raw.decode('utf-8')` failure); when none of these hold it
returns the `num_values` strings delimited by consecutive offsets. -/
theorem claim8_string_block (data : List Nat) (n : Nat) :
    ((data.length < (n + 1) * 4 ∨
      (∃ i, i < n ∧ (readOffsets data (n + 1)).getD (i + 1) 0
          < (readOffsets data (n + 1)).getD i 0) ∨
      data.length - (n + 1) * 4 < (readOffsets data (n + 1)).getLastD 0 ∨
      (∃ i, i < n ∧ validUtf8 (((data.drop ((n + 1) * 4)).drop
          ((readOffsets data (n + 1)).getD i 0)).take
          ((readOffsets data (n + 1)).getD (i + 1) 0
            - (readOffsets data (n + 1)).getD i 0)) = false)) →
      ∃ e, parse_string_block data n = .error e) ∧
    (((n + 1) * 4 ≤ data.length ∧
      (∀ i, i < n → (readOffsets data (n + 1)).getD i 0
          ≤ (readOffsets data (n + 1)).getD (i + 1) 0) ∧
      (readOffsets data (n + 1)).getLastD 0 ≤ data.length - (n + 1) * 4 ∧
      (∀ i, i < n → validUtf8 (((data.drop ((n + 1) * 4)).drop
          ((readOffsets data (n + 1)).getD i 0)).take
          ((readOffsets data (n + 1)).getD (i + 1) 0
            - (readOffsets data (n + 1)).getD i 0)) = true)) →
      parse_string_block data n = .ok ((List.range n).map fun i =>
        ((data.drop ((n + 1) * 4)).drop ((readOffsets data (n + 1)).getD i 0)).take
          ((readOffsets data (n + 1)).getD (i + 1) 0
            - (readOffsets data (n + 1)).getD i 0))) := by
  constructor
  · intro hviol
    unfold parse_string_block
    by_cases hshort : data.length < (n + 1) * 4
    · rw [if_pos hshort]
      exact ⟨_, rfl⟩
    · rw [if_neg hshort]
      by_cases hlast : (readOffsets data (n + 1)).getLastD 0
          > (data.drop ((n + 1) * 4)).length
      · rw [if_pos hlast]
        exact ⟨_, rfl⟩
      · rw [if_neg hlast]
        rw [List.length_drop] at hlast
        rcases hviol with hv | hv | hv | hv
        · omega
        · obtain ⟨i, hi, hlt⟩ := hv
          exact sliceStrings_err_any _ ⟨i, by simpa using hi, Or.inl hlt⟩
        · omega
        · obtain ⟨i, hi, hvf⟩ := hv
          exact sliceStrings_err_any _ ⟨i, by simpa using hi, Or.inr hvf⟩
  · intro ⟨h1, h2, h3, h4⟩
    unfold parse_string_block
    rw [if_neg (by omega)]
    rw [if_neg (by rw [List.length_drop]; omega)]
    rw [sliceStrings_ok _ (fun i hi => h2 i (by simpa using hi))
        (fun i hi => h4 i (by simpa using hi))]
    simp only [readOffsets_length, Nat.add_sub_cancel]

/-- Witness for the amended C8: the block of one string `a` (offsets
`[0,1]`, data `a`, valid UTF-8) parses back to `["a"]`, exercising the
success branch. -/
theorem claim8_string_block_witness :
    parse_string_block [0, 0, 0, 0, 1, 0, 0, 0, 97] 1 = .ok [[97]] :=
  (claim8_string_block [0, 0, 0, 0, 1, 0, 0, 0, 97] 1).2
    ⟨by norm_num, by decide, by decide, by decide⟩

/-! ## Claim C3 -/

theorem mkEntries_mem_spec {comp : List Nat → List Nat} :
    ∀ (tcols : List (Nat × List Value)) (names : List (List Nat)) (pos : Nat)
      (metas : List (Nat × Nat × Nat)) (body : List Nat),
    writeBlocks comp pos tcols = .ok (metas, body) →
    ∀ e ∈ mkEntries names tcols metas,
    ∃ col u, serializeByType e.type col = .ok u ∧ e.num_values = col.length ∧
      e.uncomp_size = u.length ∧ e.comp_size = (comp u).length := by
  intro tcols
  induction tcols with
  | nil =>
      intro names pos metas body h e he
      simp only [writeBlocks, Except.ok.injEq, Prod.mk.injEq] at h
      rw [← h.1] at he
      cases names <;> simp [mkEntries] at he
  | cons tc tcs ih =>
      intro names pos metas body h e he
      obtain ⟨t, col⟩ := tc
      unfold writeBlocks at h
      cases hser : serializeByType t col with
      | error err => simp [hser] at h
      | ok u =>
          rw [hser] at h
          simp only [ok_bind] at h
          cases hws : writeBlocks comp (pos + (comp u).length) tcs with
          | error err => simp [hws] at h
          | ok p =>
              obtain ⟨ms, bd⟩ := p
              rw [hws] at h
              simp only [ok_bind, Except.ok.injEq, Prod.mk.injEq] at h
              rw [← h.1] at he
              cases names with
              | nil => simp [mkEntries] at he
              | cons n ns =>
                  simp only [mkEntries, List.mem_cons] at he
                  rcases he with rfl | he
                  · exact ⟨col, u, hser, rfl, rfl, rfl⟩
                  · exact ih ns (pos + (comp u).length) ms bd hws e he

/-- Counterexample to claim C3 as stated: writing a zero-row STRING column
produces a descriptor with `num_values = 0` whose `uncomp_size` is 4 (the
serialized empty offsets table), not 0 — so `comp_size == 0 &&
uncomp_size == 0` is not what the writer emits for this zero-row column. -/
theorem claim3_counterexample :
    write_cstm cId [[115]] [2] [[]] 0 = .ok exFileStr ∧
    readHeaderPhase exFileStr = .ok (0, 0, [ColEntry.mk [115] 2 0 0 73 4 4]) ∧
    (ColEntry.mk [115] 2 0 0 73 4 4).num_values = 0 ∧
    (ColEntry.mk [115] 2 0 0 73 4 4).uncomp_size ≠ 0 :=
  ⟨rfl, rfl, rfl, by decide⟩

/-- Amended claim C3: in every file produced by `write_cstm`, a column with
`num_values = 0` has `uncomp_size = 0` when its type is INT32 or FLOAT64
and `uncomp_size = 4` (the lone zero offset entry) when its type is STRING;
the writer therefore does not use `comp_size == 0 && uncomp_size == 0` as
the encoding of zero-row STRING columns. -/
theorem claim3_zero_row_descriptor (comp : List Nat → List Nat)
    (names : List (List Nat)) (types : List Nat) (cols : List (List Value))
    (sig : Nat) (file : List Nat)
    (hw : write_cstm comp names types cols sig = .ok file) :
    ∃ s r meta, readHeaderPhase file = .ok (s, r, meta) ∧
      ∀ e ∈ meta, e.num_values = 0 →
        (e.type = 2 → e.uncomp_size = 4 ∧ ¬(e.comp_size = 0 ∧ e.uncomp_size = 0)) ∧
        (e.type ≠ 2 → e.uncomp_size = 0) := by
  obtain ⟨metas, body, ihlen, hws, hdrop, hrhp⟩ := readHeaderPhase_write hw
  refine ⟨_, _, _, hrhp, ?_⟩
  intro e he hnz
  obtain ⟨col, u, hser, hnum, hunc, hcmp⟩ :=
    mkEntries_mem_spec (types.zip cols) names (HEADER_PREFIX_LEN + ihlen)
      metas body hws e he
  have hcol : col = [] := List.length_eq_zero.mp (by omega)
  subst hcol
  constructor
  · intro ht2
    rw [ht2] at hser
    have hu : u = [0, 0, 0, 0] := by
      have : serializeByType 2 ([] : List Value) = .ok [0, 0, 0, 0] := rfl
      rw [hser] at this
      simpa using this
    constructor
    · rw [hunc, hu]
      rfl
    · rw [hunc, hu]
      simp
  · intro ht2
    rcases serializeByType_type hser with ht | ht | ht
    · rw [ht] at hser
      have hu : u = [] := by
        have : serializeByType 0 ([] : List Value) = .ok [] := rfl
        rw [hser] at this
        simpa using this
      rw [hunc, hu]
      rfl
    · rw [ht] at hser
      have hu : u = [] := by
        have : serializeByType 1 ([] : List Value) = .ok [] := rfl
        rw [hser] at this
        simpa using this
      rw [hunc, hu]
      rfl
    · exact absurd ht ht2

/-- Witness for the amended C3: the concrete zero-row STRING file. -/
theorem claim3_zero_row_descriptor_witness :
    ∃ s r meta, readHeaderPhase exFileStr = .ok (s, r, meta) ∧
      ∀ e ∈ meta, e.num_values = 0 →
        (e.type = 2 → e.uncomp_size = 4 ∧ ¬(e.comp_size = 0 ∧ e.uncomp_size = 0)) ∧
        (e.type ≠ 2 → e.uncomp_size = 0) :=
  claim3_zero_row_descriptor cId [[115]] [2] [[]] 0 exFileStr rfl

/-! ## Claim C4 helper lemmas -/

theorem getD_map_of_lt {α β : Type} (f : α → β) (l : List α) {j : Nat}
    (hj : j < l.length) (d : β) (d' : α) :
    (l.map f).getD j d = f (l.getD j d') := by
  rw [List.getD_eq_getElem l d' hj,
      List.getD_eq_getElem (l.map f) d (by simpa using hj)]
  simp

theorem zip_getD_snd : ∀ (types : List Nat) (cols : List (List Value)) (j : Nat),
    j < cols.length → j < types.length →
    ((types.zip cols).getD j (0, [])).2 = cols.getD j [] := by
  intro types
  induction types with
  | nil => intro cols j h1 h2; simp at h2
  | cons t ts ih =>
      intro cols j h1 h2
      cases cols with
      | nil => simp at h1
      | cons c cs =>
          cases j with
          | zero => rfl
          | succ j' =>
              simp only [List.zip_cons_cons, List.getD_cons_succ]
              exact ih cs j' (by simpa using h1) (by simpa using h2)

theorem readColumn_head {comp : List Nat → List Nat}
    {decomp : List Nat → Except String (List Nat)}
    (hcd : ∀ b, decomp (comp b) = .ok b)
    {t : Nat} {col : List Value} {u : List Nat} {pos : Nat} {file bd : List Nat}
    (hser : serializeByType t col = .ok u)
    (hdrop : file.drop pos = comp u ++ bd) (n : List Nat) :
    readColumn decomp file
      (ColEntry.mk n t 0 col.length pos (comp u).length u.length) = .ok col := by
  unfold readColumn
  split
  · rename_i hz
    rw [serializeByType_empty hser hz.2]
  · simp only
    rw [show file.drop pos = comp u ++ bd from hdrop, readExact_append bd rfl]
    simp only [ok_bind]
    rw [hcd u]
    simp only [ok_bind, if_neg (by omega : ¬ u.length ≠ u.length)]
    exact serializeByType_parse hser

theorem readColumn_writeBlocks_getD {comp : List Nat → List Nat}
    {decomp : List Nat → Except String (List Nat)}
    (hcd : ∀ b, decomp (comp b) = .ok b) :
    ∀ (tcols : List (Nat × List Value)) (names : List (List Nat)) (pos : Nat)
      (metas : List (Nat × Nat × Nat)) (body file : List Nat) (j : Nat),
    writeBlocks comp pos tcols = .ok (metas, body) →
    file.drop pos = body →
    names.length = tcols.length →
    j < tcols.length →
    readColumn decomp file ((mkEntries names tcols metas).getD j defaultEntry)
      = .ok ((tcols.getD j (0, [])).2) := by
  intro tcols
  induction tcols with
  | nil => intro names pos metas body file j _ _ _ hj; simp at hj
  | cons tc tcs ih =>
      intro names pos metas body file j h hdrop hlen hj
      obtain ⟨t, col⟩ := tc
      cases names with
      | nil => simp at hlen
      | cons n ns =>
          unfold writeBlocks at h
          cases hser : serializeByType t col with
          | error e => simp [hser] at h
          | ok u =>
              rw [hser] at h
              simp only [ok_bind] at h
              cases hws : writeBlocks comp (pos + (comp u).length) tcs with
              | error e => simp [hws] at h
              | ok p =>
                  obtain ⟨ms, bd⟩ := p
                  rw [hws] at h
                  simp only [ok_bind, Except.ok.injEq, Prod.mk.injEq] at h
                  obtain ⟨hmet, hbod⟩ := h
                  subst hmet hbod
                  cases j with
                  | zero =>
                      simp only [mkEntries, List.getD_cons_zero]
                      exact readColumn_head hcd hser hdrop n
                  | succ j' =>
                      simp only [mkEntries, List.getD_cons_succ]
                      exact ih ns (pos + (comp u).length) ms bd file j' hws
                        (by rw [← List.drop_drop, hdrop, List.drop_left])
                        (by simpa using hlen) (by simpa using hj)

theorem mkEntries_map_name :
    ∀ (names : List (List Nat)) (tcols : List (Nat × List Value))
      (metas : List (Nat × Nat × Nat)),
    names.length = tcols.length → metas.length = tcols.length →
    (mkEntries names tcols metas).map ColEntry.name = names := by
  intro names
  induction names with
  | nil =>
      intro tcols metas h1 _
      cases tcols with
      | nil => cases metas <;> rfl
      | cons tc tcs => simp at h1
  | cons n ns ih =>
      intro tcols metas h1 h2
      cases tcols with
      | nil => simp at h1
      | cons tc tcs =>
          obtain ⟨t, col⟩ := tc
          cases metas with
          | nil => simp at h2
          | cons m ms =>
              obtain ⟨o, cs, us⟩ := m
              simp only [mkEntries, List.map_cons]
              rw [ih tcs ms (by simpa using h1) (by simpa using h2)]

theorem foldl_dict_mem :
    ∀ {meta : List ColEntry} {e : ColEntry},
    (meta.map ColEntry.name).Nodup → e ∈ meta → ∀ init,
    meta.foldl (fun acc c => if c.name = e.name then some c else acc) init = some e := by
  intro meta
  induction meta with
  | nil => intro e _ he; simp at he
  | cons c rest ih =>
      intro e hnd he init
      simp only [List.map_cons, List.nodup_cons] at hnd
      simp only [List.foldl_cons]
      rcases List.mem_cons.mp he with rfl | he'
      · rw [if_pos rfl]
        refine foldl_dict_no_match ?_ (some e)
        intro c' hc' hne
        exact hnd.1 (hne ▸ List.mem_map_of_mem ColEntry.name hc')
      · exact ih hnd.2 he' _

theorem dictLookup_of_nodup {meta : List ColEntry} {e : ColEntry}
    (hnd : (meta.map ColEntry.name).Nodup) (he : e ∈ meta) :
    dictLookup meta e.name = some e :=
  foldl_dict_mem hnd he none

theorem resolveColumns_ok {meta : List ColEntry} :
    ∀ (sel : List (List Nat)) (ent : List Nat → ColEntry),
    (∀ n ∈ sel, dictLookup meta n = some (ent n)) →
    resolveColumns meta sel = .ok (sel.map ent) := by
  intro sel
  induction sel with
  | nil => intro ent _; rfl
  | cons n rest ih =>
      intro ent h
      unfold resolveColumns
      rw [h n (by simp), ih ent (fun m hm => h m (by simp [hm]))]
      rfl

theorem readColumns_pointwise {decomp : List Nat → Except String (List Nat)}
    {file : List Nat} :
    ∀ (sel : List (List Nat)) (ent : List Nat → ColEntry) (val : List Nat → List Value),
    (∀ n ∈ sel, (ent n).name = n ∧ readColumn decomp file (ent n) = .ok (val n)) →
    readColumns decomp file (sel.map ent) = .ok (sel.map fun n => (n, val n)) := by
  intro sel
  induction sel with
  | nil => intro ent val _; rfl
  | cons n rest ih =>
      intro ent val h
      simp only [List.map_cons, readColumns]
      rw [(h n (by simp)).2, ih ent val (fun m hm => h m (by simp [hm]))]
      simp only [ok_bind, (h n (by simp)).1]

theorem all_getD_length {cols : List (List Value)} {R : Nat}
    (h : cols.all (fun c => c.length = R)) {j : Nat} (hj : j < cols.length) :
    (cols.getD j []).length = R := by
  have hmem : cols.getD j [] ∈ cols := by
    rw [List.getD_eq_getElem cols [] hj]
    exact List.getElem_mem hj
  simpa using List.all_eq_true.mp h _ hmem

theorem findIdx_getD_self {names : List (List Nat)} {n : List Nat} (hn : n ∈ names) :
    names.getD (names.findIdx fun m => m = n) [] = n ∧
    names.findIdx (fun m => m = n) < names.length := by
  induction names with
  | nil => simp at hn
  | cons a rest ih =>
      by_cases ha : a = n
      · rw [List.findIdx_cons]
        simp [ha]
      · rw [List.findIdx_cons]
        have hpa : decide (a = n) = false := by simpa using ha
        rw [hpa]
        have hn' : n ∈ rest := by
          rcases List.mem_cons.mp hn with h | h
          · exact absurd h.symm ha
          · exact h
        obtain ⟨h1, h2⟩ := ih hn'
        simp only [cond_false]
        exact ⟨h1, by simpa using h2⟩

theorem transpose_select {cols : List (List Value)} {names : List (List Nat)}
    (R : Nat) (sel : List (List Nat)) (val : List Nat → List Value)
    (hv : ∀ n ∈ sel, names.findIdx (fun m => m = n) < cols.length ∧
      val n = cols.getD (names.findIdx (fun m => m = n)) []) :
    transposeRows R (sel.map val)
      = (transposeRows R cols).map fun row =>
          sel.map fun n => row.getD (names.findIdx fun m => m = n) (Value.vInt 0) := by
  unfold transposeRows
  rw [List.map_map]
  apply List.map_congr_left
  intro i _
  simp only [Function.comp_apply, List.map_map]
  apply List.map_congr_left
  intro n hn
  obtain ⟨hj, hval⟩ := hv n hn
  simp only [Function.comp_apply]
  rw [hval]
  exact (getD_map_of_lt (fun col => col.getD i (Value.vInt 0)) cols hj (Value.vInt 0) []).symm

/-- Counterexample to claim C4 as stated: a file is allowed to carry two
columns with the same name.  With columns `a:[1]`, `a:[2]`, the full read
returns both columns, but the selective read of `a` resolves through the
name dictionary, whose last entry wins, so it returns the second column —
not the first-match filtering of the full result. -/
theorem claim4_counterexample :
    write_cstm cId [[97], [97]] [0, 0] [[Value.vInt 1], [Value.vInt 2]] 0
      = .ok exFileDup ∧
    read_cstm dId exFileDup none
      = .ok ([[97], [97]], [[Value.vInt 1, Value.vInt 2]]) ∧
    read_cstm dId exFileDup (some [[97]]) = .ok ([[97]], [[Value.vInt 2]]) ∧
    specSelect [[97], [97]] [[Value.vInt 1, Value.vInt 2]] [[97]]
      = ([[97]], [[Value.vInt 1]]) ∧
    (([[97]], [[Value.vInt 2]]) : List (List Nat) × List (List Value))
      ≠ ([[97]], [[Value.vInt 1]]) :=
  ⟨rfl, rfl, rfl, rfl, by decide⟩

/-- Amended claim C4: for every file written by `write_cstm` **whose column
names are pairwise distinct**, and every list of requested names that all
occur in the file, the selective read returns exactly the full read result
filtered down to those names in the caller's requested order. -/
theorem claim4_selective_read (comp : List Nat → List Nat)
    (decomp : List Nat → Except String (List Nat))
    (hcd : ∀ b, decomp (comp b) = .ok b)
    (names : List (List Nat)) (types : List Nat) (cols : List (List Value))
    (sig : Nat) (file : List Nat) (sel : List (List Nat))
    (hw : write_cstm comp names types cols sig = .ok file)
    (hnd : names.Nodup)
    (hsel : ∀ n ∈ sel, n ∈ names)
    (full : List (List Nat) × List (List Value))
    (hfull : read_cstm decomp file none = .ok full) :
    read_cstm decomp file (some sel) = .ok (specSelect full.1 full.2 sel) := by
  rw [read_write_full hcd hw] at hfull
  simp only [Except.ok.injEq] at hfull
  subst hfull
  obtain ⟨metas, body, ihlen, hws, hdrop, hrhp⟩ := readHeaderPhase_write hw
  obtain ⟨hl1, hl2, hall, -⟩ := write_cstm_ok hw
  have hmlen : metas.length = (types.zip cols).length := writeBlocks_metas_length hws
  have hnt : names.length = (types.zip cols).length := by
    rw [List.length_zip]; omega
  have hname : (mkEntries names (types.zip cols) metas).map ColEntry.name = names :=
    mkEntries_map_name names _ metas hnt hmlen
  have hmetalen : (mkEntries names (types.zip cols) metas).length = names.length := by
    simpa using congrArg List.length hname
  have hcolslen : names.length = cols.length := hl1.trans hl2
  have hidxlt : ∀ n ∈ sel, names.findIdx (fun m => m = n) < names.length :=
    fun n hn => (findIdx_getD_self (hsel n hn)).2
  have hidxname : ∀ n ∈ sel, names.getD (names.findIdx fun m => m = n) [] = n :=
    fun n hn => (findIdx_getD_self (hsel n hn)).1
  have hentname : ∀ n ∈ sel,
      ((mkEntries names (types.zip cols) metas).getD
        (names.findIdx fun m => m = n) defaultEntry).name = n := by
    intro n hn
    have h1 : names.findIdx (fun m => m = n)
        < (mkEntries names (types.zip cols) metas).length := by
      rw [hmetalen]; exact hidxlt n hn
    have h2 := getD_map_of_lt ColEntry.name (mkEntries names (types.zip cols) metas)
      h1 ([] : List Nat) defaultEntry
    rw [hname] at h2
    rw [← h2]
    exact hidxname n hn
  have hresolve : ∀ n ∈ sel,
      dictLookup (mkEntries names (types.zip cols) metas) n
        = some ((mkEntries names (types.zip cols) metas).getD
            (names.findIdx fun m => m = n) defaultEntry) := by
    intro n hn
    have h1 : names.findIdx (fun m => m = n)
        < (mkEntries names (types.zip cols) metas).length := by
      rw [hmetalen]; exact hidxlt n hn
    have hm : (mkEntries names (types.zip cols) metas).getD
        (names.findIdx fun m => m = n) defaultEntry
        ∈ mkEntries names (types.zip cols) metas := by
      rw [List.getD_eq_getElem _ defaultEntry h1]
      exact List.getElem_mem h1
    have h2 := dictLookup_of_nodup (by rw [hname]; exact hnd) hm
    rw [hentname n hn] at h2
    exact h2
  have hreadcol : ∀ n ∈ sel,
      readColumn decomp file ((mkEntries names (types.zip cols) metas).getD
          (names.findIdx fun m => m = n) defaultEntry)
        = .ok (cols.getD (names.findIdx fun m => m = n) []) := by
    intro n hn
    have hjz : names.findIdx (fun m => m = n) < (types.zip cols).length := by
      rw [← hnt]; exact hidxlt n hn
    have h2 := readColumn_writeBlocks_getD hcd (types.zip cols) names
      (HEADER_PREFIX_LEN + ihlen) metas body file (names.findIdx fun m => m = n)
      hws hdrop hnt hjz
    rw [zip_getD_snd types cols _ (by omega) (by omega)] at h2
    exact h2
  unfold read_cstm
  rw [hrhp]
  simp only [ok_bind]
  rw [resolveColumns_ok sel _ hresolve]
  simp only [ok_bind]
  rw [readColumns_pointwise sel _ (fun n => cols.getD (names.findIdx fun m => m = n) [])
    (fun n hn => ⟨hentname n hn, hreadcol n hn⟩)]
  simp only [ok_bind]
  cases sel with
  | nil => simp [specSelect]
  | cons n0 sel' =>
      rw [if_neg (by simp)]
      have hfst : ((n0 :: sel').map fun n =>
          (n, cols.getD (names.findIdx fun m => m = n) [])).map Prod.fst
          = n0 :: sel' := by
        have he : (Prod.fst ∘ fun n : List Nat =>
            (n, cols.getD (names.findIdx fun m => m = n) [])) = id := rfl
        rw [List.map_map, he, List.map_id]
      have hsnd : ((n0 :: sel').map fun n =>
          (n, cols.getD (names.findIdx fun m => m = n) [])).map Prod.snd
          = (n0 :: sel').map fun n => cols.getD (names.findIdx fun m => m = n) [] := by
        have he : (Prod.snd ∘ fun n : List Nat =>
            (n, cols.getD (names.findIdx fun m => m = n) []))
            = fun n => cols.getD (names.findIdx fun m => m = n) [] := rfl
        rw [List.map_map, he]
      rw [hfst, hsnd]
      have hvlen : ∀ n ∈ n0 :: sel',
          (cols.getD (names.findIdx fun m => m = n) []).length
            = (cols.headD []).length := by
        intro n hn
        exact all_getD_length hall (by
          have := hidxlt n hn
          omega)
      have hhead : ((((n0 :: sel').map fun n =>
          cols.getD (names.findIdx fun m => m = n) []).headD [])).length
          = (cols.headD []).length := by
        simpa using hvlen n0 (by simp)
      rw [hhead]
      rw [if_neg (by
        simp only [List.all_eq_true, List.mem_map, decide_eq_true_eq, not_not]
        rintro arr ⟨n, hn, rfl⟩
        exact hvlen n hn)]
      unfold specSelect
      simp only [List.isEmpty_cons, Bool.false_eq_true, if_false]
      rw [transpose_select (cols.headD []).length (n0 :: sel')
        (fun n => cols.getD (names.findIdx fun m => m = n) [])
        (fun n hn => ⟨by have := hidxlt n hn; omega, rfl⟩)]

/-- Witness for the amended C4: selecting the only column of `exFile1`
matches the spec-side filtering of the full result. -/
theorem claim4_selective_read_witness :
    read_cstm dId exFile1 (some [[105, 100]])
      = .ok (specSelect [[105, 100]] [[Value.vInt 1]] [[105, 100]]) :=
  claim4_selective_read cId dId (fun _ => rfl) [[105, 100]] [0] [[Value.vInt 1]]
    0 exFile1 [[105, 100]] rfl (by simp) (fun n hn => hn)
    ([[105, 100]], [[Value.vInt 1]]) rfl

end CSTM
